import Mathlib

/-!
# A shallow embedding of the command interpreter `project.c`

C strings are lists of characters (the bytes before the terminating NUL).
External facts the program cannot control are parameters of the model:

* the wait status `waitpid` stores for a program started by `execute_simple`
  is given by an environment `env`, indexed by the number of programs started
  so far and by the command;
* `fork`, `pipe` and `strdup` succeed, every child terminates, and no child of
  `execute_piped` is killed by a signal;
* `printf` output is modelled as reaching standard output when it is issued.
-/

namespace CShell

/-- A C string: the characters before the terminating NUL. -/
abbrev Str := List Char

def MAX_CMD_LEN : Nat := 1024

def MAX_ARGS : Nat := 64

def MAX_HISTORY : Nat := 100

/-- Token scan shared by `strtok` and `strtok_r`: `cur` is the token being
read (empty while delimiters are skipped). A delimiter ends a non-empty
token; the end of the buffer ends the last one. -/
def strtok_scan (delim : Str) : Str → Str → List Str
  | [], cur => if cur = [] then [] else [cur]
  | c :: cs, cur =>
    if c ∈ delim then
      if cur = [] then strtok_scan delim cs [] else cur :: strtok_scan delim cs []
    else strtok_scan delim cs (cur ++ [c])

/-- The successive non-NULL results of `strtok(s, delim)`, `strtok(NULL, delim)`, ...
(equally `strtok_r`): the maximal non-empty runs of characters of `s` that are
not in the delimiter set `delim`. After the last of them every call returns NULL. -/
def strtok_tokens (delim : Str) (s : Str) : List Str :=
  strtok_scan delim s []

/-- One call of `strtok` on the text `s` still to be scanned: leading
delimiters are skipped; NULL (`none`) when nothing is left, else the token up
to the next delimiter, and the text after that delimiter (which is overwritten
with NUL) for the next call. -/
def strtok_call (delim : Str) (s : Str) : Option (Str × Str) :=
  match s.dropWhile (fun c => decide (c ∈ delim)) with
  | [] => none
  | c :: cs =>
    some ((c :: cs).takeWhile (fun x => decide (x ∉ delim)),
          ((c :: cs).dropWhile (fun x => decide (x ∉ delim))).tail)

/-- Targets a standard stream of a process can be connected to. -/
inductive Chan where
  | own_stdin
  | own_stdout
  | pipe_read (k : Nat)
  | pipe_write (k : Nat)
  deriving DecidableEq, Repr

/-- The locals `args`, `input_file`, `output_file`, `append` of `execute_simple`.
The index `i` of the source is `args.length`; `none` is a NULL pointer. -/
structure Command where
  args : List Str
  input_file : Option Str
  output_file : Option Str
  append : Bool
  deriving DecidableEq, Repr

/-- Observable actions. `spawn` is the `fork` of `execute_simple` (line 82):
the child runs lines 85-99 for the command, starting from the given standard
input and output, and the parent waits for it. -/
inductive Event where
  | pipe_created (i : Nat)
  | fork_stage (i : Nat)
  | wait_stage (i : Nat)
  | spawn (c : Command) (stdin stdout : Chan)
  | write (out : Chan) (text : Str)
  deriving DecidableEq, Repr

/-- How a call ends: it returns a value to its caller, or the calling process
terminates through `exit(code)`. -/
inductive Outcome where
  | returned (status : Nat)
  | exited (code : Nat)
  deriving DecidableEq, Repr

/-- Wait status of the program started as number `n` for command `c`. -/
abbrev Env := Nat → Command → Nat

/-- The `WEXITSTATUS` of a wait status: bits 8..15. -/
def WEXITSTATUS (status : Nat) : Nat := (status / 256) % 256

/-- Wait status of a process that terminated through `exit(code)`. -/
def exit_wait_status (code : Nat) : Nat := (code % 256) * 256

/-- The globals `history` (NULL is `none`) and `history_count`. -/
structure Shell where
  history : List (Option Str)
  history_count : Nat
  deriving DecidableEq, Repr

/-- State of the globals at program start: all slots NULL, count 0. -/
def Shell.init : Shell := ⟨List.replicate MAX_HISTORY none, 0⟩

def add_to_history (sh : Shell) (cmd : Str) : Shell :=
  if sh.history_count < MAX_HISTORY then
    ⟨sh.history.set sh.history_count (some cmd), sh.history_count + 1⟩
  else sh

/-- Tokenizing loop of `parse_args` (lines 37-43) over the tokens still to come. -/
def parse_args_loop : List Str → List Str → List Str
  | [], args => args
  | token :: rest, args =>
    if args.length < MAX_ARGS - 1 then parse_args_loop rest (args ++ [token]) else args

def parse_args (cmd : Str) : List Str :=
  parse_args_loop (strtok_tokens " \t\n".toList cmd) []

/-- Token loop of `execute_simple` (lines 55-71). The list holds the current
token followed by the tokens later `strtok(NULL, ...)` calls return. After a
redirection operator the next call supplies the file name (NULL when nothing
is left, and then the loop ends). -/
def token_loop : List Str → Command → Command
  | [], c => c
  | token :: rest, c =>
    if c.args.length < MAX_ARGS - 1 then
      if token = "<".toList then
        match rest with
        | [] => ⟨c.args, none, c.output_file, c.append⟩
        | f :: rest2 => token_loop rest2 ⟨c.args, some f, c.output_file, c.append⟩
      else if token = ">".toList then
        match rest with
        | [] => ⟨c.args, c.input_file, none, false⟩
        | f :: rest2 => token_loop rest2 ⟨c.args, c.input_file, some f, false⟩
      else if token = ">>".toList then
        match rest with
        | [] => ⟨c.args, c.input_file, none, true⟩
        | f :: rest2 => token_loop rest2 ⟨c.args, c.input_file, some f, true⟩
      else token_loop rest ⟨c.args ++ [token], c.input_file, c.output_file, c.append⟩
    else c

/-- Lines 48-72 of `execute_simple`: the command a stage text resolves to. -/
def resolve (cmd : Str) : Command :=
  token_loop (strtok_tokens " \t\n".toList cmd) ⟨[], none, none, false⟩

/-- Text of `printf("%d: %s", j + 1, history[j])`; a NULL slot prints as glibc
prints it (no slot below `history_count` is NULL in a reachable state). -/
def history_line (sh : Shell) (j : Nat) : Str :=
  Nat.toDigits 10 (j + 1) ++ ": ".toList ++
    (match sh.history.get? j with
     | some (some s) => s
     | _ => "(null)".toList)

/-- The `history` built-in (lines 77-78), printing to the standard output
`out` of the process that runs it. -/
def print_history (sh : Shell) (out : Chan) : List Event :=
  (List.range sh.history_count).map (fun j => Event.write out (history_line sh j))

/-- What a call of `execute_simple` or `execute_piped` does: its outcome, the
events it causes, and the number of programs started once it is over. -/
structure ExecResult where
  outcome : Outcome
  events : List Event
  started : Nat
  deriving DecidableEq, Repr

/-- Model of `execute_simple` run in a process whose standard input and output
are `sin` and `sout`, with `n` programs started before. -/
def execute_simple (env : Env) (sh : Shell) (n : Nat) (sin sout : Chan) (cmd : Str) :
    ExecResult :=
  let c := resolve cmd
  match c.args with
  | [] => ⟨Outcome.returned 0, [], n⟩
  | arg0 :: _ =>
    if arg0 = "exit".toList then ⟨Outcome.exited 0, [], n⟩
    else if arg0 = "history".toList then ⟨Outcome.returned 0, print_history sh sout, n⟩
    else ⟨Outcome.returned (WEXITSTATUS (env n c)), [Event.spawn c sin sout], n + 1⟩

/-- Lines 111-115 of `execute_piped`: the stage texts stored in `cmds`. -/
def collect_cmds : List Str → List Str → List Str
  | [], cmds => cmds
  | tok :: rest, cmds =>
    if cmds.length < MAX_ARGS - 1 then collect_cmds rest (cmds ++ [tok]) else cmds

/-- Locals of the stage loop of `execute_piped`. `prev_fd = none` is -1,
`some k` is the read end of the pipe made in iteration `k`. -/
structure PipeState where
  prev_fd : Option Nat
  status : Nat
  events : List Event
  started : Nat
  deriving DecidableEq, Repr

/-- Exit code of the child forked at line 124: it ends at `exit(0)` of line 139
when `execute_simple` returns, or inside `execute_simple` at line 75. -/
def stage_child_code (o : Outcome) : Nat :=
  match o with
  | Outcome.returned _ => 0
  | Outcome.exited code => code

/-- The `for` loop of `execute_piped` (lines 120-149) from iteration `i` on,
over the stage texts still to run. -/
def stage_loop (env : Env) (sh : Shell) (sin sout : Chan) (num_cmds : Nat) :
    Nat → List Str → PipeState → PipeState
  | _, [], st => st
  | i, cmd :: rest, st =>
    let has_next : Bool := decide (i < num_cmds - 1)
    let child_in := match st.prev_fd with
      | none => sin
      | some k => Chan.pipe_read k
    let child_out := if has_next then Chan.pipe_write i else sout
    let r := execute_simple env sh st.started child_in child_out cmd
    stage_loop env sh sin sout num_cmds (i + 1) rest
      ⟨if has_next then some i else st.prev_fd,
       exit_wait_status (stage_child_code r.outcome),
       st.events ++ (if has_next then [Event.pipe_created i] else []) ++
         [Event.fork_stage i] ++ r.events ++ [Event.wait_stage i],
       r.started⟩

/-- Model of `execute_piped`; the calling process never exits here, the
built-ins run in the children. -/
def execute_piped (env : Env) (sh : Shell) (n : Nat) (sin sout : Chan) (cmdline : Str) :
    ExecResult :=
  let cmds := collect_cmds (strtok_tokens "|".toList cmdline) []
  let st := stage_loop env sh sin sout cmds.length 0 cmds ⟨none, 0, [], n⟩
  ⟨Outcome.returned st.status, st.events, st.started⟩

/-- One `and_token` of `process_input`: its text, and the call made for it
(`none` when `run_next` was false and nothing was called). -/
structure ConjRecord where
  text : Str
  run : Option ExecResult
  deriving DecidableEq, Repr

/-- Result of the inner loop of `process_input` over one segment. -/
structure SegResult where
  log : List ConjRecord
  started : Nat
  exited : Bool
  deriving DecidableEq, Repr

/-- The call made for an `and_token` when `run_next` holds (lines 165-169). -/
def run_conjunct (env : Env) (sh : Shell) (n : Nat) (and_token : Str) : ExecResult :=
  if '|' ∈ and_token then execute_piped env sh n Chan.own_stdin Chan.own_stdout and_token
  else execute_simple env sh n Chan.own_stdin Chan.own_stdout and_token

/-- Inner `while (and_token)` loop of `process_input` (lines 163-172). Nothing
is recorded after a call that terminates the interpreter. -/
def and_loop (env : Env) (sh : Shell) : Nat → Bool → List Str → SegResult
  | n, _, [] => ⟨[], n, false⟩
  | n, run_next, and_token :: rest =>
    if run_next then
      let r := run_conjunct env sh n and_token
      match r.outcome with
      | Outcome.exited _ => ⟨[⟨and_token, some r⟩], r.started, true⟩
      | Outcome.returned status =>
        let t := and_loop env sh r.started (decide (status = 0)) rest
        ⟨⟨and_token, some r⟩ :: t.log, t.started, t.exited⟩
    else
      let t := and_loop env sh n false rest
      ⟨⟨and_token, none⟩ :: t.log, t.started, t.exited⟩

/-- Result of `process_input`: one log per segment reached. -/
structure InputResult where
  log : List (List ConjRecord)
  started : Nat
  exited : Bool
  deriving DecidableEq, Repr

/-- Outer `while (token)` loop of `process_input` (lines 159-174). -/
def seg_loop (env : Env) (sh : Shell) : Nat → List Str → InputResult
  | n, [] => ⟨[], n, false⟩
  | n, token :: rest =>
    let s := and_loop env sh n true (strtok_tokens "&&".toList token)
    if s.exited then ⟨[s.log], s.started, true⟩
    else
      let t := seg_loop env sh s.started rest
      ⟨s.log :: t.log, t.started, t.exited⟩

def process_input (env : Env) (sh : Shell) (n : Nat) (line : Str) : InputResult :=
  seg_loop env sh n (strtok_tokens ";".toList line)

/-- One iteration of the `while` loop of `main` (lines 182-189): the globals
afterwards, the call of `process_input` if one was made, the number of
programs started, and whether the loop goes on. -/
structure IterResult where
  shell : Shell
  called : Option InputResult
  started : Nat
  running : Bool
  deriving DecidableEq, Repr

/-- Loop body of `main`; `input = none` is `fgets` returning NULL. -/
def main_iteration (env : Env) (sh : Shell) (n : Nat) (input : Option Str) : IterResult :=
  match input with
  | none => ⟨sh, none, n, false⟩
  | some line =>
    if line = "\n".toList then ⟨sh, none, n, true⟩
    else
      let sh1 := add_to_history sh line
      let r := process_input env sh1 n line
      ⟨sh1, some r, r.started, !r.exited⟩

/-- All events of a `process_input` call, in order. -/
def InputResult.events (r : InputResult) : List Event :=
  (r.log.map (fun seg => (seg.map (fun q =>
    match q.run with
    | none => []
    | some e => e.events)).flatten)).flatten

/-- The commands for which a program was started. -/
def spawned (evs : List Event) : List Command :=
  evs.filterMap (fun e =>
    match e with
    | Event.spawn c _ _ => some c
    | _ => none)

/-! ## The redirection resolver as the specification words it -/

/-- A token that is one of the redirection operators. -/
def is_redir_op (t : Str) : Bool :=
  decide (t = "<".toList) || decide (t = ">".toList) || decide (t = ">>".toList)

def is_input_op (t : Str) : Bool := decide (t = "<".toList)

def is_output_op (t : Str) : Bool := decide (t = ">".toList) || decide (t = ">>".toList)

/-- Spec wording of the argument vector: the tokens that are neither a
redirection operator nor the token directly following one, in order.
`prev_op` tells whether the token before the list is an operator. -/
def spec_plain_args : Bool → List Str → List Str
  | _, [] => []
  | prev_op, t :: ts =>
    if is_redir_op t || prev_op then spec_plain_args (is_redir_op t) ts
    else t :: spec_plain_args (is_redir_op t) ts

/-- The last token that satisfies `p`, with the token following it if any. -/
def spec_last_op (p : Str → Bool) : List Str → Option (Str × Option Str)
  | [] => none
  | t :: ts =>
    match spec_last_op p ts with
    | some r => some r
    | none => if p t then some (t, ts.head?) else none

/-- Spec wording of the resolver: plain arguments, the token following the
last `<`, the token following the last `>` or `>>`, and whether that last
output operator is `>>`. -/
def spec_resolve (toks : List Str) : Command :=
  ⟨spec_plain_args false toks,
   (spec_last_op is_input_op toks).bind Prod.snd,
   (spec_last_op is_output_op toks).bind Prod.snd,
   match spec_last_op is_output_op toks with
   | some r => decide (r.1 = ">>".toList)
   | none => false⟩

/-- Whether some redirection operator token is directly followed by another
redirection operator token. -/
def op_follows_op : List Str → Bool
  | a :: b :: rest => (is_redir_op a && is_redir_op b) || op_follows_op (b :: rest)
  | _ => false

/-! ## The child of `execute_simple` and the wiring of a pipeline -/

/-- Flags of the two `open` calls of the child: `O_RDONLY` (line 86), and
`O_WRONLY | O_CREAT` with `O_TRUNC` or `O_APPEND` (line 92). -/
inductive OpenMode where
  | read_only
  | write_trunc
  | write_append
  deriving DecidableEq, Repr

/-- What a standard descriptor refers to when `execvp` is called: the channel
the child had at `fork`, or a file the child opened and installed with `dup2`. -/
inductive Installed where
  | inherited (ch : Chan)
  | file (name : Str) (mode : OpenMode)
  deriving DecidableEq, Repr

/-- How the child forked at line 82 goes on: it reaches `execvp(args[0], args)`
(line 97) with the given standard input and output, or it ends with `exit(1)`
after a failed `open` (lines 87 and 93). -/
inductive ChildStart where
  | exec (args : List Str) (stdin stdout : Installed)
  | input_failed
  | output_failed
  deriving DecidableEq, Repr

/-- Flags of the output `open`: `append ? O_APPEND : O_TRUNC`. -/
def output_mode (append : Bool) : OpenMode :=
  if append then OpenMode.write_append else OpenMode.write_trunc

/-- Lines 91-97 of the child, with standard input already settled. -/
def child_output (opens : Str → OpenMode → Bool) (c : Command) (stdin : Installed)
    (sout : Chan) : ChildStart :=
  match c.output_file with
  | some f =>
    if opens f (output_mode c.append) then
      ChildStart.exec c.args stdin (Installed.file f (output_mode c.append))
    else ChildStart.output_failed
  | none => ChildStart.exec c.args stdin (Installed.inherited sout)

/-- Lines 85-97: the child of a `spawn` event for command `c` forked by a
process whose standard input and output are `sin` and `sout`; `opens f m`
tells whether `open` of `f` with flags `m` succeeds. -/
def child_start (opens : Str → OpenMode → Bool) (c : Command) (sin sout : Chan) :
    ChildStart :=
  match c.input_file with
  | some f =>
    if opens f OpenMode.read_only then
      child_output opens c (Installed.file f OpenMode.read_only) sout
    else ChildStart.input_failed
  | none => child_output opens c (Installed.inherited sin) sout

/-- Standard input of the child of stage `i` after lines 127-130: the read end
of the previous pipe, or what `execute_piped` itself has for the first stage. -/
def stage_stdin (sin : Chan) (i : Nat) : Chan :=
  if i = 0 then sin else Chan.pipe_read (i - 1)

/-- Standard output of the child of stage `i` after lines 131-135. -/
def stage_stdout (sout : Chan) (num_cmds i : Nat) : Chan :=
  if i < num_cmds - 1 then Chan.pipe_write i else sout

/-- The `fork` and `waitpid` events of the parent in `execute_piped`. -/
def parent_fork_wait (evs : List Event) : List Event :=
  evs.filter (fun e =>
    match e with
    | Event.fork_stage _ => true
    | Event.wait_stage _ => true
    | _ => false)

/-- Whether an event is a `fork` of `execute_piped`. -/
def is_fork_stage (e : Event) : Bool :=
  match e with
  | Event.fork_stage _ => true
  | _ => false

/-- Spec wording of launch before wait: no stage is forked after the first
wait. -/
def forks_before_waits : List Event → Bool
  | [] => true
  | Event.wait_stage _ :: rest => rest.all (fun e => !is_fork_stage e)
  | _ :: rest => forks_before_waits rest

/-- The sequence fork, wait, fork, wait, ... for `k` stages from stage `i` on. -/
def fork_wait_alternating : Nat → Nat → List Event
  | _, 0 => []
  | i, k + 1 => Event.fork_stage i :: Event.wait_stage i :: fork_wait_alternating (i + 1) k

/-! ## Indices written into the fixed arrays -/

/-- Indices `i` of the writes `args[i] = ...` of `execute_simple`, in order: line
68 for each plain argument, then the terminator of line 72. -/
def token_loop_writes : List Str → Nat → List Nat
  | [], i => [i]
  | token :: rest, i =>
    if i < MAX_ARGS - 1 then
      if token = "<".toList ∨ token = ">".toList ∨ token = ">>".toList then
        match rest with
        | [] => [i]
        | _ :: rest2 => token_loop_writes rest2 i
      else i :: token_loop_writes rest (i + 1)
    else [i]

/-- Indices `i` of the writes `args[i] = ...` of `parse_args` (lines 40 and 43). -/
def parse_args_writes : List Str → Nat → List Nat
  | [], i => [i]
  | _ :: rest, i =>
    if i < MAX_ARGS - 1 then i :: parse_args_writes rest (i + 1) else [i]

/-- Indices of the writes `cmds[num_cmds++] = tok` of `execute_piped` (line 113). -/
def collect_cmds_writes : List Str → Nat → List Nat
  | [], _ => []
  | _ :: rest, num_cmds =>
    if num_cmds < MAX_ARGS - 1 then num_cmds :: collect_cmds_writes rest (num_cmds + 1)
    else []

/-! ## Conjuncts as the specification words them -/

/-- Scan for the two-character operator `&&`; `cur` is the piece being read. -/
def spec_and_scan : Str → Str → List Str
  | [], cur => if cur = [] then [] else [cur]
  | [c], cur => [cur ++ [c]]
  | c :: d :: rest, cur =>
    if c = '&' ∧ d = '&' then
      if cur = [] then spec_and_scan rest [] else cur :: spec_and_scan rest []
    else spec_and_scan (d :: rest) (cur ++ [c])

/-- Spec wording of the conjuncts of a segment: the non-empty pieces lying
between occurrences of the two-character sequence `&&`. -/
def spec_conjuncts (seg : Str) : List Str :=
  spec_and_scan seg []

/-! ## Concrete inputs used in examples -/

/-- Example environment: the program `false` ends with exit code 1 (wait
status 256), every other program with exit code 0. -/
def env_false_fails : Env :=
  fun _ c => if c.args.head? = some "false".toList then 256 else 0

/-- The call `execute_simple("false ")` as first program under `env_false_fails`. -/
def false_run : ExecResult :=
  ⟨Outcome.returned 1,
   [Event.spawn ⟨["false".toList], none, none, false⟩ Chan.own_stdin Chan.own_stdout], 1⟩

/-! ## Lemmas on the tokenizer -/

theorem strtok_scan_all_delim (delim : Str) (s : Str) (h : ∀ c ∈ s, c ∈ delim) :
    strtok_scan delim s [] = [] := by
  induction s with
  | nil => simp [strtok_scan]
  | cons c cs ih =>
    have hc : c ∈ delim := h c (List.mem_cons_self _ _)
    have hcs : ∀ d ∈ cs, d ∈ delim := fun d hd => h d (List.mem_cons_of_mem _ hd)
    simp [strtok_scan, hc, ih hcs]

theorem strtok_scan_no_delim (delim : Str) (s cur : Str) (h : ∀ c ∈ s, c ∉ delim)
    (hne : cur ++ s ≠ []) : strtok_scan delim s cur = [cur ++ s] := by
  induction s generalizing cur with
  | nil => simp at hne; simp [strtok_scan, hne]
  | cons c cs ih =>
    have hc : c ∉ delim := h c (List.mem_cons_self _ _)
    have hcs : ∀ d ∈ cs, d ∉ delim := fun d hd => h d (List.mem_cons_of_mem _ hd)
    simp only [strtok_scan, hc, if_false]
    rw [ih (cur ++ [c]) hcs (by simp)]
    simp

theorem strtok_scan_append (delim : Str) (a b cur : Str) (d : Char) (hd : d ∈ delim) :
    strtok_scan delim (a ++ d :: b) cur =
      strtok_scan delim a cur ++ strtok_scan delim b [] := by
  induction a generalizing cur with
  | nil =>
    by_cases hcur : cur = [] <;> simp [strtok_scan, hd, hcur]
  | cons c cs ih =>
    by_cases hc : c ∈ delim
    · by_cases hcur : cur = [] <;> simp [strtok_scan, hc, hcur, ih]
    · simp [strtok_scan, hc, ih]

theorem strtok_scan_cur (delim : Str) (s cur : Str) (hcur : cur ≠ []) :
    strtok_scan delim s cur =
      (cur ++ s.takeWhile (fun x => decide (x ∉ delim))) ::
        strtok_scan delim (s.dropWhile (fun x => decide (x ∉ delim))).tail [] := by
  induction s generalizing cur with
  | nil => simp [strtok_scan, hcur]
  | cons c cs ih =>
    by_cases hc : c ∈ delim
    · simp [strtok_scan, hc, hcur, List.takeWhile, List.dropWhile]
    · rw [strtok_scan, if_neg hc, ih (cur ++ [c]) (by simp)]
      simp [List.takeWhile, List.dropWhile, hc]

/-- The token list is what repeated calls of `strtok` return. -/
theorem strtok_tokens_unfold (delim : Str) (s : Str) :
    strtok_tokens delim s =
      match strtok_call delim s with
      | none => []
      | some (t, rest) => t :: strtok_tokens delim rest := by
  unfold strtok_tokens
  induction s with
  | nil => simp [strtok_scan, strtok_call]
  | cons c cs ih =>
    by_cases hc : c ∈ delim
    · rw [strtok_scan, if_pos hc, if_pos rfl, ih]
      simp [strtok_call, List.dropWhile, hc]
    · rw [strtok_scan, if_neg hc, strtok_scan_cur delim cs _ (by simp)]
      simp [strtok_call, List.dropWhile, List.takeWhile, hc]

/-! ## Lemmas on the sequencer -/

theorem and_loop_false (env : Env) (sh : Shell) (toks : List Str) (n : Nat) :
    and_loop env sh n false toks = ⟨toks.map (fun t => ⟨t, none⟩), n, false⟩ := by
  induction toks with
  | nil => simp [and_loop]
  | cons t ts ih => simp [and_loop, ih]

theorem and_loop_true_cons (env : Env) (sh : Shell) (n : Nat) (c : Str) (cs : List Str) :
    ∃ rest, (and_loop env sh n true (c :: cs)).log =
      ⟨c, some (run_conjunct env sh n c)⟩ :: rest := by
  simp only [and_loop, if_true]
  split
  · exact ⟨[], rfl⟩
  · exact ⟨_, rfl⟩

theorem and_loop_texts (env : Env) (sh : Shell) (toks : List Str) (n : Nat) (b : Bool) :
    ((and_loop env sh n b toks).log.map ConjRecord.text) <+: toks := by
  induction toks generalizing n b with
  | nil => simp [and_loop]
  | cons t ts ih =>
    cases b with
    | false => simp [and_loop_false, Function.comp_def]
    | true =>
      simp only [and_loop, if_true]
      split
      · simp [List.prefix_cons_inj, List.nil_prefix]
      · simpa [List.prefix_cons_inj] using ih _ _

theorem and_loop_prior_zero (env : Env) (sh : Shell) (toks : List Str) (n : Nat) (b : Bool)
    (pre post : List ConjRecord) (r : ConjRecord)
    (hlog : (and_loop env sh n b toks).log = pre ++ r :: post) (hr : r.run.isSome) :
    ∀ q ∈ pre, ∃ e, q.run = some e ∧ e.outcome = Outcome.returned 0 := by
  induction toks generalizing n b pre with
  | nil => simp [and_loop] at hlog
  | cons t ts ih =>
    cases b with
    | false =>
      rw [and_loop_false] at hlog
      have hmem : r ∈ List.map (fun t => (⟨t, none⟩ : ConjRecord)) (t :: ts) := by
        simp only [] at hlog
        rw [hlog]; simp
      obtain ⟨x, _, hx⟩ := List.mem_map.1 hmem
      rw [← hx] at hr
      simp at hr
    | true =>
      simp only [and_loop, if_true] at hlog
      split at hlog
      · cases pre with
        | nil => simp
        | cons p ps => simp at hlog
      · rename_i status hst
        cases pre with
        | nil => simp
        | cons p ps =>
          simp only [List.cons_append, List.cons.injEq] at hlog
          obtain ⟨hp, htail⟩ := hlog
          by_cases hz : status = 0
          · intro q hq
            rcases List.mem_cons.1 hq with hq | hq
            · subst hq
              rw [← hp]
              exact ⟨_, rfl, by rw [hst, hz]⟩
            · exact ih _ _ ps htail q hq
          · exfalso
            simp only [hz, decide_False] at htail
            rw [and_loop_false] at htail
            have hmem : r ∈ List.map (fun t => (⟨t, none⟩ : ConjRecord)) ts := by
              simp only [] at htail
              rw [htail]; simp
            obtain ⟨x, _, hx⟩ := List.mem_map.1 hmem
            rw [← hx] at hr
            simp at hr

theorem seg_loop_mem (env : Env) (sh : Shell) (segs : List Str) (n : Nat)
    (seg : List ConjRecord) (h : seg ∈ (seg_loop env sh n segs).log) :
    ∃ m tok, tok ∈ segs ∧
      seg = (and_loop env sh m true (strtok_tokens "&&".toList tok)).log := by
  induction segs generalizing n with
  | nil => simp [seg_loop] at h
  | cons t ts ih =>
    simp only [seg_loop] at h
    split at h
    · simp only [List.mem_singleton] at h
      exact ⟨n, t, List.mem_cons_self _ _, h⟩
    · rcases List.mem_cons.1 h with h | h
      · exact ⟨n, t, List.mem_cons_self _ _, h⟩
      · obtain ⟨m, tok, htok, hseg⟩ := ih _ h
        exact ⟨m, tok, List.mem_cons_of_mem _ htok, hseg⟩

theorem and_loop_run (env : Env) (sh : Shell) (toks : List Str) (n : Nat) (b : Bool)
    (r : ConjRecord) (hr : r ∈ (and_loop env sh n b toks).log) (e : ExecResult)
    (he : r.run = some e) : ∃ m, e = run_conjunct env sh m r.text := by
  induction toks generalizing n b with
  | nil => simp [and_loop] at hr
  | cons t ts ih =>
    cases b with
    | false =>
      rw [and_loop_false] at hr
      obtain ⟨x, _, hx⟩ := List.mem_map.1 hr
      rw [← hx] at he
      simp at he
    | true =>
      simp only [and_loop, if_true] at hr
      split at hr
      · simp only [List.mem_singleton] at hr
        subst hr
        simp only [Option.some.injEq] at he
        exact ⟨n, he.symm⟩
      · rcases List.mem_cons.1 hr with hr | hr
        · subst hr
          simp only [Option.some.injEq] at he
          exact ⟨n, he.symm⟩
        · exact ih _ _ hr

theorem seg_loop_length (env : Env) (sh : Shell) (segs : List Str) (n : Nat) :
    (seg_loop env sh n segs).log.length ≤ segs.length ∧
    ((seg_loop env sh n segs).exited = false →
      (seg_loop env sh n segs).log.length = segs.length) := by
  induction segs generalizing n with
  | nil => simp [seg_loop]
  | cons t ts ih =>
    simp only [seg_loop]
    split
    · simp
    · have h := ih (and_loop env sh n true (strtok_tokens "&&".toList t)).started
      simp only [List.length_cons]
      exact ⟨by omega, fun hx => by have := h.2 hx; omega⟩

theorem seg_loop_first (env : Env) (sh : Shell) (segs : List Str) (n k : Nat)
    (seg c : Str) (cs : List Str) (hk : k < (seg_loop env sh n segs).log.length)
    (hseg : segs[k]? = some seg) (htok : strtok_tokens "&&".toList seg = c :: cs) :
    ∃ m rest, (seg_loop env sh n segs).log[k]? =
      some (⟨c, some (run_conjunct env sh m c)⟩ :: rest) := by
  induction segs generalizing n k with
  | nil => simp at hseg
  | cons t ts ih =>
    cases k with
    | zero =>
      simp only [List.getElem?_cons_zero, Option.some.injEq] at hseg
      subst hseg
      obtain ⟨rest, hrest⟩ := and_loop_true_cons env sh n c cs
      refine ⟨n, rest, ?_⟩
      simp only [seg_loop, htok]
      split <;> simp [hrest]
    | succ j =>
      simp only [List.getElem?_cons_succ] at hseg
      simp only [seg_loop] at hk ⊢
      split at hk
      · simp at hk
      · rename_i hex
        simp only [List.length_cons, Nat.add_lt_add_iff_right] at hk
        obtain ⟨m, rest, h⟩ := ih _ j hk hseg
        refine ⟨m, rest, ?_⟩
        simp only [hex]
        simpa using h

/-! ## Claims -/

/-- C1: in every segment log of `process_input`, a conjunct is executed only
if every earlier conjunct of that segment was executed and returned 0, and
once a conjunct returns a nonzero status no later conjunct of the segment is
executed. The log lists conjuncts of a `;`-segment of the line, and each
executed one is a call of `execute_piped` or `execute_simple` on its text. -/
theorem and_short_circuit (env : Env) (sh : Shell) (n : Nat) (line : Str)
    (seg : List ConjRecord) (hseg : seg ∈ (process_input env sh n line).log)
    (pre post : List ConjRecord) (r : ConjRecord) (hsplit : seg = pre ++ r :: post) :
    (∃ tok ∈ strtok_tokens ";".toList line,
      seg.map ConjRecord.text <+: strtok_tokens "&&".toList tok) ∧
    (∀ e, r.run = some e → ∃ m, e = run_conjunct env sh m r.text) ∧
    (r.run.isSome → ∀ q ∈ pre, ∃ e, q.run = some e ∧ e.outcome = Outcome.returned 0) ∧
    (∀ e status, r.run = some e → e.outcome = Outcome.returned status → status ≠ 0 →
      ∀ q ∈ post, q.run = none) := by
  obtain ⟨m, tok, htok, hlog⟩ := seg_loop_mem env sh _ n seg hseg
  have hprior := and_loop_prior_zero env sh (strtok_tokens "&&".toList tok) m true
  refine ⟨⟨tok, htok, ?_⟩, ?_, ?_, ?_⟩
  · rw [hlog]; exact and_loop_texts env sh _ m true
  · intro e he
    refine and_loop_run env sh (strtok_tokens "&&".toList tok) m true r ?_ e he
    rw [← hlog, hsplit]; simp
  · intro hr
    exact hprior pre post r (by rw [← hlog, hsplit]) hr
  · intro e status he hout hne q hq
    cases hrun : q.run with
    | none => rfl
    | some eq =>
      exfalso
      obtain ⟨p1, p2, hp⟩ := List.append_of_mem hq
      have hall := hprior (pre ++ r :: p1) p2 q
        (by rw [← hlog, hsplit, hp]; simp) (by simp [hrun])
      obtain ⟨e2, he2, hz⟩ := hall r (by simp)
      rw [he] at he2
      simp only [Option.some.injEq] at he2
      rw [← he2, hout] at hz
      simp only [Outcome.returned.injEq] at hz
      exact hne hz

/-- C2: `process_input` reaches every `;`-segment of the line unless the
interpreter exits, and in every segment it reaches the first conjunct is
executed, whatever was returned before; for a line `cmd1 ; cmd2` whose first
part returns, the first conjunct of `cmd2` is executed. -/
theorem semicolon_sequencing (env : Env) (sh : Shell) (n : Nat) (line : Str) :
    (process_input env sh n line).log.length ≤ (strtok_tokens ";".toList line).length ∧
    ((process_input env sh n line).exited = false →
      (process_input env sh n line).log.length = (strtok_tokens ";".toList line).length) ∧
    (∀ k seg c cs, k < (process_input env sh n line).log.length →
      (strtok_tokens ";".toList line)[k]? = some seg →
      strtok_tokens "&&".toList seg = c :: cs →
      ∃ m rest, (process_input env sh n line).log[k]? =
        some (⟨c, some (run_conjunct env sh m c)⟩ :: rest)) ∧
    (∀ cmd1 cmd2 c cs, line = cmd1 ++ ';' :: cmd2 → ';' ∉ cmd1 → ';' ∉ cmd2 → cmd1 ≠ [] →
      strtok_tokens "&&".toList cmd2 = c :: cs →
      (and_loop env sh n true (strtok_tokens "&&".toList cmd1)).exited = false →
      ∃ seg1 m rest, (process_input env sh n line).log =
        [seg1, ⟨c, some (run_conjunct env sh m c)⟩ :: rest]) := by
  refine ⟨(seg_loop_length env sh _ n).1, (seg_loop_length env sh _ n).2, ?_, ?_⟩
  · intro k seg c cs hk hseg htok
    exact seg_loop_first env sh _ n k seg c cs hk hseg htok
  · intro cmd1 cmd2 c cs hline h1 h2 hne htok hex
    have hc2 : cmd2 ≠ [] := by
      intro h0
      rw [h0] at htok
      simp [strtok_tokens, strtok_scan] at htok
    have hsegs : strtok_tokens ";".toList line = [cmd1, cmd2] := by
      rw [hline]
      unfold strtok_tokens
      rw [strtok_scan_append _ _ _ _ _ (by decide)]
      rw [strtok_scan_no_delim _ cmd1 [] (by
        intro x hx hmem
        have hx2 : x = ';' := by simpa using hmem
        exact h1 (hx2 ▸ hx))
        (by simpa using hne)]
      rw [strtok_scan_no_delim _ cmd2 [] (by
        intro x hx hmem
        have hx2 : x = ';' := by simpa using hmem
        exact h2 (hx2 ▸ hx))
        (by simpa using hc2)]
      simp
    obtain ⟨rest, hrest⟩ := and_loop_true_cons env sh
      (and_loop env sh n true (strtok_tokens "&&".toList cmd1)).started c cs
    refine ⟨(and_loop env sh n true (strtok_tokens "&&".toList cmd1)).log,
      (and_loop env sh n true (strtok_tokens "&&".toList cmd1)).started, rest, ?_⟩
    simp only [process_input, hsegs, seg_loop, hex, htok, Bool.false_eq_true, if_false]
    split <;> exact congrArg (fun x => [_, x]) hrest

/-- Witness for C1 on the line `false && echo hi ; echo a`: `false` returns 1
and the conjunct `echo hi` is not executed. -/
theorem and_short_circuit_witness :
    [⟨"false ".toList, some false_run⟩, ⟨" echo hi ".toList, none⟩] ∈
      (process_input env_false_fails Shell.init 0
        "false && echo hi ; echo a\n".toList).log ∧
    ∀ q ∈ [(⟨" echo hi ".toList, none⟩ : ConjRecord)], q.run = none :=
  ⟨by decide,
   (and_short_circuit env_false_fails Shell.init 0 "false && echo hi ; echo a\n".toList
      [⟨"false ".toList, some false_run⟩, ⟨" echo hi ".toList, none⟩] (by decide)
      [] [⟨" echo hi ".toList, none⟩] ⟨"false ".toList, some false_run⟩ rfl).2.2.2
      false_run 1 rfl rfl (by decide)⟩

/-- Witness for C2 on the line `false ; echo hi`: `echo hi` is executed after
`false` returned 1. -/
theorem semicolon_sequencing_witness :
    ∃ seg1 m rest, (process_input env_false_fails Shell.init 0 "false ; echo hi\n".toList).log =
      [seg1, ⟨" echo hi\n".toList,
        some (run_conjunct env_false_fails Shell.init m " echo hi\n".toList)⟩ :: rest] :=
  (semicolon_sequencing env_false_fails Shell.init 0 "false ; echo hi\n".toList).2.2.2
    "false ".toList " echo hi\n".toList " echo hi\n".toList [] (by decide) (by decide)
    (by decide) (by decide) (by decide) (by decide)

/-! ### Pipelines -/

theorem stage_child_code_execute_simple (env : Env) (sh : Shell) (n : Nat) (sin sout : Chan)
    (cmd : Str) : stage_child_code (execute_simple env sh n sin sout cmd).outcome = 0 := by
  simp only [execute_simple]
  cases (resolve cmd).args with
  | nil => rfl
  | cons a rest =>
    simp only []
    by_cases h1 : a = "exit".toList
    · rw [if_pos h1]; rfl
    · rw [if_neg h1]
      by_cases h2 : a = "history".toList
      · rw [if_pos h2]; rfl
      · rw [if_neg h2]; rfl

theorem stage_loop_status_zero (env : Env) (sh : Shell) (sin sout : Chan) (num_cmds : Nat)
    (cmds : List Str) (i : Nat) (st : PipeState) (h : st.status = 0) :
    (stage_loop env sh sin sout num_cmds i cmds st).status = 0 := by
  induction cmds generalizing i st with
  | nil => simpa [stage_loop] using h
  | cons c cs ih =>
    simp only [stage_loop]
    apply ih
    simp [stage_child_code_execute_simple, exit_wait_status]

/-- C3: the failing behaviour. Every child that `execute_piped` forks ends with
`exit(0)`, so `execute_piped` returns 0 whatever the stages did; on the line
`false | false && echo hi`, where the last stage exits with status 1, the
conjunct `echo hi` is executed all the same. -/
theorem pipeline_status_is_always_zero :
    (∀ (env : Env) (sh : Shell) (n : Nat) (sin sout : Chan) (cmdline : Str),
      (execute_piped env sh n sin sout cmdline).outcome = Outcome.returned 0) ∧
    WEXITSTATUS (env_false_fails 1 ⟨["false".toList], none, none, false⟩) = 1 ∧
    spawned (process_input env_false_fails Shell.init 0
      "false | false && echo hi\n".toList).events =
      [⟨["false".toList], none, none, false⟩, ⟨["false".toList], none, none, false⟩,
       ⟨["echo".toList, "hi".toList], none, none, false⟩] := by
  refine ⟨?_, by decide, by decide⟩
  intro env sh n sin sout cmdline
  simp only [execute_piped]
  rw [stage_loop_status_zero]
  rfl

/-! ### History -/

theorem process_input_history (env : Env) (sh : Shell) (n : Nat) :
    process_input env sh n "history\n".toList =
      ⟨[[⟨"history\n".toList,
          some ⟨Outcome.returned 0, print_history sh Chan.own_stdout, n⟩⟩]], n, false⟩ := by
  rfl

theorem main_iteration_nonempty (env : Env) (sh : Shell) (n : Nat) (line : Str)
    (h : line ≠ "\n".toList) :
    main_iteration env sh n (some line) =
      ⟨add_to_history sh line, some (process_input env (add_to_history sh line) n line),
       (process_input env (add_to_history sh line) n line).started,
       !(process_input env (add_to_history sh line) n line).exited⟩ := by
  simp only [main_iteration, if_neg h]

/-- C4, as stated, fails: after the lines `ls` and `pwd`, the line `history`
does not print exactly the two lines `1: ls` and `2: pwd`. -/
theorem history_two_lines_counterexample :
    "ls\n".toList ≠ "\n".toList ∧ "pwd\n".toList ≠ "\n".toList ∧
    (main_iteration env_false_fails
      (main_iteration env_false_fails
        (main_iteration env_false_fails Shell.init 0 (some "ls\n".toList)).shell
        1 (some "pwd\n".toList)).shell
      2 (some "history\n".toList)).called.map InputResult.events ≠
      some [Event.write Chan.own_stdout "1: ls\n".toList,
            Event.write Chan.own_stdout "2: pwd\n".toList] := by
  decide

/-- C4, amended: starting from an empty history, after two non-empty lines L1
and L2, the line `history` prints exactly three lines to the interpreter's
standard output, `1: L1`, `2: L2` and `3: history`, in that order: the line
being run is recorded before it is executed. -/
theorem history_lists_running_line (env : Env) (n1 n2 n3 : Nat) (L1 L2 : Str)
    (h1 : L1 ≠ "\n".toList) (h2 : L2 ≠ "\n".toList) :
    (main_iteration env
      (main_iteration env (main_iteration env Shell.init n1 (some L1)).shell
        n2 (some L2)).shell
      n3 (some "history\n".toList)).called.map InputResult.events =
      some [Event.write Chan.own_stdout ("1: ".toList ++ L1),
            Event.write Chan.own_stdout ("2: ".toList ++ L2),
            Event.write Chan.own_stdout "3: history\n".toList] := by
  rw [main_iteration_nonempty env _ n1 L1 h1, main_iteration_nonempty env _ n2 L2 h2,
    main_iteration_nonempty env _ n3 _ (by decide)]
  simp only [Option.map_some', Option.some.injEq, process_input_history, InputResult.events,
    List.map_cons, List.map_nil, List.flatten_cons, List.flatten_nil, List.append_nil]
  have hsh : add_to_history (add_to_history (add_to_history Shell.init L1) L2)
      "history\n".toList =
      ⟨some L1 :: some L2 :: some "history\n".toList :: List.replicate 97 none, 3⟩ := rfl
  rw [hsh]
  rfl

/-- Witness for C4 amended, with the lines `ls` and `pwd`. -/
theorem history_lists_running_line_witness :
    (main_iteration env_false_fails
      (main_iteration env_false_fails
        (main_iteration env_false_fails Shell.init 0 (some "ls\n".toList)).shell
        1 (some "pwd\n".toList)).shell
      2 (some "history\n".toList)).called.map InputResult.events =
      some [Event.write Chan.own_stdout ("1: ".toList ++ "ls\n".toList),
            Event.write Chan.own_stdout ("2: ".toList ++ "pwd\n".toList),
            Event.write Chan.own_stdout "3: history\n".toList] :=
  history_lists_running_line env_false_fails 0 1 2 "ls\n".toList "pwd\n".toList
    (by decide) (by decide)

theorem add_to_history_stored (ls : List Str) (cmd : Str) (h : ls.length < MAX_HISTORY) :
    add_to_history
        ⟨ls.map some ++ List.replicate (MAX_HISTORY - ls.length) none, ls.length⟩ cmd =
      ⟨(ls ++ [cmd]).map some ++ List.replicate (MAX_HISTORY - (ls.length + 1)) none,
       ls.length + 1⟩ := by
  obtain ⟨k, hk⟩ : ∃ k, MAX_HISTORY - ls.length = k + 1 := ⟨MAX_HISTORY - ls.length - 1, by omega⟩
  have hk2 : MAX_HISTORY - (ls.length + 1) = k := by omega
  simp only [add_to_history, if_pos h, hk, hk2]
  rw [List.set_append_right _ _ (by simp)]
  simp [List.replicate_succ]

theorem foldl_add_to_history (lines ls : List Str) (h : ls.length ≤ MAX_HISTORY) :
    lines.foldl add_to_history
        ⟨ls.map some ++ List.replicate (MAX_HISTORY - ls.length) none, ls.length⟩ =
      ⟨((ls ++ lines).take MAX_HISTORY).map some ++
         List.replicate (MAX_HISTORY - ((ls ++ lines).take MAX_HISTORY).length) none,
       ((ls ++ lines).take MAX_HISTORY).length⟩ := by
  induction lines generalizing ls with
  | nil => simp [List.take_of_length_le h]
  | cons l rest ih =>
    simp only [List.foldl_cons]
    by_cases hlt : ls.length < MAX_HISTORY
    · rw [add_to_history_stored ls l hlt]
      have := ih (ls ++ [l]) (by simpa using hlt)
      simpa using this
    · have hfull : ls.length = MAX_HISTORY := by omega
      have hadd : add_to_history
          ⟨ls.map some ++ List.replicate (MAX_HISTORY - ls.length) none, ls.length⟩ l =
          ⟨ls.map some ++ List.replicate (MAX_HISTORY - ls.length) none, ls.length⟩ := by
        simp [add_to_history, hlt]
      rw [hadd, ih ls h, List.take_left' hfull, List.take_left' hfull]

theorem foldl_add_to_history_init (lines : List Str) :
    lines.foldl add_to_history Shell.init =
      ⟨(lines.take MAX_HISTORY).map some ++
         List.replicate (MAX_HISTORY - min lines.length MAX_HISTORY) none,
       min lines.length MAX_HISTORY⟩ := by
  have h := foldl_add_to_history lines [] (by simp)
  simp only [List.map_nil, List.nil_append, List.length_nil, Nat.sub_zero, List.length_take] at h
  rw [Nat.min_comm] at h
  exact h

/-- C5: after any sequence of calls of `add_to_history` from the initial
state, `history_count` is min(n, 100) and never exceeds `MAX_HISTORY`, the
slots below `history_count` hold the first min(n, 100) lines in arrival order,
the other slots are NULL, and a call made when `history_count` is 100 changes
neither the array nor the count. -/
theorem history_bounded (lines : List Str) :
    (lines.foldl add_to_history Shell.init).history_count = min lines.length 100 ∧
    (lines.foldl add_to_history Shell.init).history_count ≤ MAX_HISTORY ∧
    (lines.foldl add_to_history Shell.init).history.take
        (lines.foldl add_to_history Shell.init).history_count =
      (lines.take 100).map some ∧
    (lines.foldl add_to_history Shell.init).history.drop
        (lines.foldl add_to_history Shell.init).history_count =
      List.replicate (100 - min lines.length 100) none ∧
    (∀ cmd, 100 ≤ lines.length →
      add_to_history (lines.foldl add_to_history Shell.init) cmd =
        lines.foldl add_to_history Shell.init) ∧
    (∀ (h : List (Option Str)) (cmd : Str),
      add_to_history ⟨h, 100⟩ cmd = ⟨h, 100⟩) := by
  rw [foldl_add_to_history_init]
  have hlen : ((lines.take MAX_HISTORY).map some).length = min lines.length MAX_HISTORY := by
    simp [Nat.min_comm]
  refine ⟨rfl, Nat.min_le_right _ _, ?_, ?_, ?_, ?_⟩
  · exact List.take_left' hlen
  · exact List.drop_left' hlen
  · intro cmd hfull
    simp [add_to_history, MAX_HISTORY, hfull]
  · intro h cmd
    simp [add_to_history, MAX_HISTORY]

/-- Witness for C5: after 100 lines a further call changes nothing. -/
theorem history_bounded_witness :
    add_to_history ((List.replicate 100 "ls\n".toList).foldl add_to_history Shell.init)
        "pwd\n".toList =
      (List.replicate 100 "ls\n".toList).foldl add_to_history Shell.init :=
  (history_bounded (List.replicate 100 "ls\n".toList)).2.2.2.2.1 "pwd\n".toList (by simp)

/-! ### The redirection resolver -/

theorem token_loop_full (toks : List Str) (c : Command) (h : MAX_ARGS - 1 ≤ c.args.length) :
    token_loop toks c = c := by
  cases toks with
  | nil => rfl
  | cons t rest =>
    have hn : ¬ c.args.length < MAX_ARGS - 1 := by omega
    rw [token_loop.eq_def]
    simp only [if_neg hn]

theorem token_loop_plain (t : Str) (rest : List Str) (c : Command)
    (ht : is_redir_op t = false) (h : c.args.length < MAX_ARGS - 1) :
    token_loop (t :: rest) c =
      token_loop rest ⟨c.args ++ [t], c.input_file, c.output_file, c.append⟩ := by
  simp only [is_redir_op, Bool.or_eq_false_iff, decide_eq_false_iff_not] at ht
  rw [token_loop.eq_def]
  simp only [if_pos h, if_neg ht.1.1, if_neg ht.1.2, if_neg ht.2]

theorem token_loop_plain_run (ps rest : List Str) (c : Command)
    (hp : ∀ t ∈ ps, is_redir_op t = false) (h : c.args.length + ps.length ≤ MAX_ARGS - 1) :
    token_loop (ps ++ rest) c =
      token_loop rest ⟨c.args ++ ps, c.input_file, c.output_file, c.append⟩ := by
  induction ps generalizing c with
  | nil => simp
  | cons p ps ih =>
    simp only [List.length_cons] at h
    rw [List.cons_append, token_loop_plain p _ c (hp p (List.mem_cons_self _ _)) (by omega)]
    rw [ih _ (fun t ht => hp t (List.mem_cons_of_mem _ ht)) (by simp; omega)]
    simp

theorem op_follows_op_tail (a : Str) (l : List Str) (h : op_follows_op (a :: l) = false) :
    op_follows_op l = false := by
  cases l with
  | nil => rfl
  | cons b r =>
    simp only [op_follows_op, Bool.or_eq_false_iff] at h
    exact h.2

theorem op_follows_op_head (a b : Str) (l : List Str) (h : op_follows_op (a :: b :: l) = false)
    (ha : is_redir_op a = true) : is_redir_op b = false := by
  simp only [op_follows_op, Bool.or_eq_false_iff, Bool.and_eq_false_iff] at h
  rcases h.1 with h1 | h1
  · rw [ha] at h1; cases h1
  · exact h1

theorem spec_last_op_skip (p : Str → Bool) (t : Str) (ts : List Str) (h : p t = false) :
    spec_last_op p (t :: ts) = spec_last_op p ts := by
  simp only [spec_last_op, h]
  cases spec_last_op p ts <;> rfl

theorem spec_last_op_hit (p : Str → Bool) (t : Str) (ts : List Str) (h : p t = true) :
    spec_last_op p (t :: ts) =
      some ((spec_last_op p ts).getD (t, ts.head?)) := by
  simp only [spec_last_op, h]
  cases spec_last_op p ts <;> rfl

theorem not_redir_op (f : Str) (h : is_redir_op f = false) :
    is_input_op f = false ∧ is_output_op f = false := by
  simp only [is_redir_op, Bool.or_eq_false_iff] at h
  simp only [is_input_op, is_output_op, Bool.or_eq_false_iff]
  exact ⟨h.1.1, h.1.2, h.2⟩

theorem not_redir_op_of_ne (t : Str) (h1 : ¬ t = "<".toList) (h2 : ¬ t = ">".toList)
    (h3 : ¬ t = ">>".toList) : is_redir_op t = false := by
  simp only [is_redir_op, Bool.or_eq_false_iff, decide_eq_false_iff_not]
  exact ⟨⟨h1, h2⟩, h3⟩

theorem spec_plain_args_after_op (op f : Str) (rest : List Str) (b : Bool)
    (hop : is_redir_op op = true) :
    spec_plain_args b (op :: f :: rest) = spec_plain_args (is_redir_op f) rest := by
  simp only [spec_plain_args, hop, Bool.true_or, Bool.or_true, if_true]

/-- The token loop agrees with the spec wording when the argument bound is not
reached and no operator token directly follows another. -/
theorem token_loop_spec (toks : List Str) (c : Command)
    (hlen : c.args.length + (spec_plain_args false toks).length ≤ 62)
    (hadj : op_follows_op toks = false) :
    token_loop toks c =
      ⟨c.args ++ spec_plain_args false toks,
       (match spec_last_op is_input_op toks with
        | none => c.input_file
        | some r => r.2),
       (match spec_last_op is_output_op toks with
        | none => c.output_file
        | some r => r.2),
       (match spec_last_op is_output_op toks with
        | none => c.append
        | some r => decide (r.1 = ">>".toList))⟩ := by
  induction toks, c using token_loop.induct with
  | case1 c => simp [token_loop, spec_plain_args, spec_last_op]
  | case2 c h =>
    rw [token_loop.eq_def]
    simp [h, spec_plain_args, spec_last_op, is_redir_op, is_input_op, is_output_op]
  | case3 c h f rest2 ih =>
    have hf := op_follows_op_head _ _ _ hadj (by decide)
    have hadj2 := op_follows_op_tail _ _ (op_follows_op_tail _ _ hadj)
    have hpl := spec_plain_args_after_op "<".toList f rest2 false (by decide)
    rw [hf] at hpl
    rw [hpl] at hlen ⊢
    rw [token_loop.eq_def]
    simp only [h, if_true]
    rw [ih hlen hadj2]
    rw [spec_last_op_hit is_input_op "<".toList _ (by decide),
      spec_last_op_skip is_input_op f _ (not_redir_op f hf).1,
      spec_last_op_skip is_output_op "<".toList _ (by decide),
      spec_last_op_skip is_output_op f _ (not_redir_op f hf).2]
    cases spec_last_op is_input_op rest2 <;> simp
  | case4 c h hne =>
    rw [token_loop.eq_def]
    simp [h, spec_plain_args, spec_last_op, is_redir_op, is_input_op, is_output_op]
  | case5 c h f rest2 hne ih =>
    have hf := op_follows_op_head _ _ _ hadj (by decide)
    have hadj2 := op_follows_op_tail _ _ (op_follows_op_tail _ _ hadj)
    have hpl := spec_plain_args_after_op ">".toList f rest2 false (by decide)
    rw [hf] at hpl
    rw [hpl] at hlen ⊢
    rw [token_loop.eq_def]
    simp only [h, if_true, if_neg hne]
    rw [ih hlen hadj2]
    rw [spec_last_op_hit is_output_op ">".toList _ (by decide),
      spec_last_op_skip is_output_op f _ (not_redir_op f hf).2,
      spec_last_op_skip is_input_op ">".toList _ (by decide),
      spec_last_op_skip is_input_op f _ (not_redir_op f hf).1]
    cases spec_last_op is_output_op rest2 <;> simp
  | case6 c h hne1 hne2 =>
    rw [token_loop.eq_def]
    simp [h, spec_plain_args, spec_last_op, is_redir_op, is_input_op, is_output_op]
  | case7 c h f rest2 hne1 hne2 ih =>
    have hf := op_follows_op_head _ _ _ hadj (by decide)
    have hadj2 := op_follows_op_tail _ _ (op_follows_op_tail _ _ hadj)
    have hpl := spec_plain_args_after_op ">>".toList f rest2 false (by decide)
    rw [hf] at hpl
    rw [hpl] at hlen ⊢
    rw [token_loop.eq_def]
    simp only [h, if_true, if_neg hne1, if_neg hne2]
    rw [ih hlen hadj2]
    rw [spec_last_op_hit is_output_op ">>".toList _ (by decide),
      spec_last_op_skip is_output_op f _ (not_redir_op f hf).2,
      spec_last_op_skip is_input_op ">>".toList _ (by decide),
      spec_last_op_skip is_input_op f _ (not_redir_op f hf).1]
    cases spec_last_op is_output_op rest2 <;> simp
  | case8 token rest c h h1 h2 h3 ih =>
    have ht := not_redir_op_of_ne token h1 h2 h3
    have hadj2 := op_follows_op_tail _ _ hadj
    have hpl : spec_plain_args false (token :: rest) = token :: spec_plain_args false rest := by
      simp only [spec_plain_args, ht, Bool.or_false, Bool.false_eq_true, if_false]
    rw [hpl] at hlen ⊢
    rw [token_loop_plain token rest c ht h]
    rw [ih (by simp only [List.length_append, List.length_cons, List.length_nil] at hlen ⊢; omega)
      hadj2]
    rw [spec_last_op_skip is_input_op token _ (not_redir_op token ht).1,
      spec_last_op_skip is_output_op token _ (not_redir_op token ht).2]
    simp
  | case9 token rest c h =>
    exfalso
    simp only [MAX_ARGS] at h
    omega

/-- C6, as stated, fails. With 63 plain arguments followed by `> f` the loop
stops at the 63rd argument and never sees the redirection, so the output file
stays NULL where the claim gives `f`; and in `cat < > f` the token `>` is taken
as the input file name, so `f` becomes an argument and no output file is set. -/
theorem resolver_counterexample :
    ((spec_plain_args false
        (List.replicate 63 "a".toList ++ [">".toList, "f".toList])).length ≤ 63 ∧
      token_loop (List.replicate 63 "a".toList ++ [">".toList, "f".toList])
          ⟨[], none, none, false⟩ ≠
        spec_resolve (List.replicate 63 "a".toList ++ [">".toList, "f".toList])) ∧
    ((spec_plain_args false
        ["cat".toList, "<".toList, ">".toList, "f".toList]).length ≤ 63 ∧
      token_loop ["cat".toList, "<".toList, ">".toList, "f".toList] ⟨[], none, none, false⟩ ≠
        spec_resolve ["cat".toList, "<".toList, ">".toList, "f".toList]) := by
  refine ⟨⟨by decide, fun h => ?_⟩, by decide, by decide⟩
  have hrun := token_loop_plain_run (List.replicate 63 "a".toList) [">".toList, "f".toList]
    ⟨[], none, none, false⟩
    (by
      intro t ht
      rw [List.eq_of_mem_replicate ht]
      decide)
    (by simp [MAX_ARGS])
  rw [hrun, token_loop_full _ _ (by simp [MAX_ARGS])] at h
  have hout := congrArg Command.output_file h
  have hspec : (spec_resolve (List.replicate 63 "a".toList ++
      [">".toList, "f".toList])).output_file = some "f".toList := by rfl
  rw [hspec] at hout
  cases hout

/-- C6, amended: for every token list with at most 62 plain arguments in which
no redirection operator is directly followed by another redirection operator,
the token loop of `execute_simple` yields the plain arguments in order, the
token following the last `<` as input file, the token following the last `>`
or `>>` as output file (NULL when nothing follows), and append set exactly
when that last output operator is `>>`. -/
theorem resolver_matches_spec (toks : List Str)
    (hlen : (spec_plain_args false toks).length ≤ 62) (hadj : op_follows_op toks = false) :
    token_loop toks ⟨[], none, none, false⟩ = spec_resolve toks := by
  rw [token_loop_spec toks ⟨[], none, none, false⟩ (by simpa using hlen) hadj]
  simp only [spec_resolve, List.nil_append]
  cases spec_last_op is_input_op toks <;> cases spec_last_op is_output_op toks <;> rfl

/-- Witness for C6 amended on the tokens of `cat < a >> f -n`. -/
theorem resolver_matches_spec_witness :
    token_loop ["cat".toList, "<".toList, "a".toList, ">>".toList, "f".toList, "-n".toList]
        ⟨[], none, none, false⟩ =
      spec_resolve
        ["cat".toList, "<".toList, "a".toList, ">>".toList, "f".toList, "-n".toList] :=
  resolver_matches_spec
    ["cat".toList, "<".toList, "a".toList, ">>".toList, "f".toList, "-n".toList]
    (by decide) (by decide)

/-! ### Empty conjuncts -/

theorem strtok_scan_chars (delim : Str) (s cur t : Str) (ht : t ∈ strtok_scan delim s cur) :
    ∀ c ∈ t, c ∈ cur ∨ (c ∈ s ∧ c ∉ delim) := by
  induction s generalizing cur with
  | nil =>
    by_cases hcur : cur = []
    · simp [strtok_scan, hcur] at ht
    · simp only [strtok_scan, if_neg hcur, List.mem_singleton] at ht
      subst ht
      exact fun c hc => Or.inl hc
  | cons x xs ih =>
    intro c hc
    by_cases hx : x ∈ delim
    · simp only [strtok_scan, if_pos hx] at ht
      by_cases hcur : cur = []
      · rw [if_pos hcur] at ht
        rcases ih [] ht c hc with h | h
        · simp at h
        · exact Or.inr ⟨List.mem_cons_of_mem _ h.1, h.2⟩
      · rw [if_neg hcur] at ht
        rcases List.mem_cons.1 ht with h | h
        · subst h; exact Or.inl hc
        · rcases ih [] h c hc with h | h
          · simp at h
          · exact Or.inr ⟨List.mem_cons_of_mem _ h.1, h.2⟩
    · simp only [strtok_scan, if_neg hx] at ht
      rcases ih (cur ++ [x]) ht c hc with h | h
      · rcases List.mem_append.1 h with h | h
        · exact Or.inl h
        · simp only [List.mem_singleton] at h
          subst h
          exact Or.inr ⟨List.mem_cons_self _ _, hx⟩
      · exact Or.inr ⟨List.mem_cons_of_mem _ h.1, h.2⟩

theorem strtok_tokens_chars (delim : Str) (s t : Str) (ht : t ∈ strtok_tokens delim s) :
    ∀ c ∈ t, c ∈ s ∧ c ∉ delim := by
  intro c hc
  rcases strtok_scan_chars delim s [] t ht c hc with h | h
  · simp at h
  · exact h

theorem resolve_blank (cmd : Str) (h : ∀ c ∈ cmd, c ∈ " \t\n".toList) :
    resolve cmd = ⟨[], none, none, false⟩ := by
  simp only [resolve, strtok_tokens, strtok_scan_all_delim _ cmd h, token_loop]

theorem execute_simple_blank (env : Env) (sh : Shell) (n : Nat) (sin sout : Chan) (cmd : Str)
    (h : ∀ c ∈ cmd, c ∈ " \t\n".toList) :
    execute_simple env sh n sin sout cmd = ⟨Outcome.returned 0, [], n⟩ := by
  simp only [execute_simple, resolve_blank cmd h]

theorem run_conjunct_blank (env : Env) (sh : Shell) (n : Nat) (cmd : Str)
    (h : ∀ c ∈ cmd, c ∈ " \t\n".toList) :
    run_conjunct env sh n cmd = ⟨Outcome.returned 0, [], n⟩ := by
  have hbar : '|' ∉ cmd := fun hmem => absurd (h _ hmem) (by decide)
  simp only [run_conjunct, if_neg hbar, execute_simple_blank env sh n _ _ cmd h]

theorem and_loop_blank_cons (env : Env) (sh : Shell) (n : Nat) (cmd : Str) (rest : List Str)
    (h : ∀ c ∈ cmd, c ∈ " \t\n".toList) :
    and_loop env sh n true (cmd :: rest) =
      ⟨⟨cmd, some ⟨Outcome.returned 0, [], n⟩⟩ :: (and_loop env sh n true rest).log,
       (and_loop env sh n true rest).started, (and_loop env sh n true rest).exited⟩ := by
  simp [and_loop, run_conjunct_blank env sh n cmd h]

theorem and_loop_blank (env : Env) (sh : Shell) (n : Nat) (toks : List Str)
    (h : ∀ t ∈ toks, ∀ c ∈ t, c ∈ " \t\n".toList) :
    and_loop env sh n true toks =
      ⟨toks.map (fun t => ⟨t, some ⟨Outcome.returned 0, [], n⟩⟩), n, false⟩ := by
  induction toks with
  | nil => simp [and_loop]
  | cons t ts ih =>
    rw [and_loop_blank_cons env sh n t ts (h t (List.mem_cons_self _ _)),
      ih (fun u hu => h u (List.mem_cons_of_mem _ hu))]
    simp

theorem seg_loop_blank (env : Env) (sh : Shell) (n : Nat) (segs : List Str)
    (h : ∀ tok ∈ segs, ∀ c ∈ tok, c ∈ "& \t\n".toList) :
    seg_loop env sh n segs =
      ⟨segs.map (fun tok => (strtok_tokens "&&".toList tok).map
         (fun t => ⟨t, some ⟨Outcome.returned 0, [], n⟩⟩)), n, false⟩ := by
  induction segs with
  | nil => simp [seg_loop]
  | cons tok rest ih =>
    have htok : ∀ t ∈ strtok_tokens "&&".toList tok, ∀ c ∈ t, c ∈ " \t\n".toList := by
      intro t ht c hc
      have hc2 := strtok_tokens_chars _ _ _ ht c hc
      have hc3 := h tok (List.mem_cons_self _ _) c hc2.1
      have hc4 := hc2.2
      simp only [String.toList, List.mem_cons, List.mem_singleton, List.not_mem_nil,
        or_false, or_self] at hc3 hc4 ⊢
      rcases hc3 with h1 | h1
      · exact absurd h1 hc4
      · simpa using h1
    simp only [seg_loop, and_loop_blank env sh n _ htok,
      ih (fun u hu => h u (List.mem_cons_of_mem _ hu))]
    simp

theorem process_input_blank (env : Env) (sh : Shell) (n : Nat) (line : Str)
    (h : ∀ c ∈ line, c ∈ ";& \t\n".toList) :
    process_input env sh n line =
      ⟨(strtok_tokens ";".toList line).map (fun tok => (strtok_tokens "&&".toList tok).map
         (fun t => ⟨t, some ⟨Outcome.returned 0, [], n⟩⟩)), n, false⟩ := by
  unfold process_input
  apply seg_loop_blank
  intro tok htok c hc
  have hc2 := strtok_tokens_chars _ _ _ htok c hc
  have hc3 := h c hc2.1
  have hc4 := hc2.2
  simp only [String.toList, List.mem_cons, List.mem_singleton, List.not_mem_nil,
    or_false] at hc3 hc4 ⊢
  rcases hc3 with h1 | h1
  · exact absurd h1 hc4
  · exact h1

theorem events_of_blank_log (n : Nat) (segs : List Str) (f : Str → List Str) (m : Nat)
    (b : Bool) :
    InputResult.events
      ⟨segs.map (fun tok => (f tok).map
        (fun t => (⟨t, some ⟨Outcome.returned 0, [], n⟩⟩ : ConjRecord))), m, b⟩ = [] := by
  simp [InputResult.events, List.flatten_eq_nil_iff]

/-- C7: for a conjunct text made only of spaces, tabs and newlines,
`execute_simple` returns 0, causes no event and starts no program, and the
inner loop of `process_input` goes on with `run_next` still true. A line made
only of `;`, `&` and whitespace, such as `;;` or `&&`, starts no program, and
every conjunct it evaluates returns 0. -/
theorem empty_conjunct_noop (env : Env) (sh : Shell) (n : Nat) (sin sout : Chan) (cmd : Str)
    (rest : List Str) (h : ∀ c ∈ cmd, c = ' ' ∨ c = '\t' ∨ c = '\n') :
    execute_simple env sh n sin sout cmd = ⟨Outcome.returned 0, [], n⟩ ∧
    and_loop env sh n true (cmd :: rest) =
      ⟨⟨cmd, some ⟨Outcome.returned 0, [], n⟩⟩ :: (and_loop env sh n true rest).log,
       (and_loop env sh n true rest).started, (and_loop env sh n true rest).exited⟩ ∧
    (∀ line, (∀ c ∈ line, c ∈ ";& \t\n".toList) →
      (process_input env sh n line).events = [] ∧
      (process_input env sh n line).started = n ∧
      (process_input env sh n line).exited = false ∧
      ∀ seg ∈ (process_input env sh n line).log, ∀ q ∈ seg,
        q.run = some ⟨Outcome.returned 0, [], n⟩) ∧
    process_input env sh n ";;".toList = ⟨[], n, false⟩ ∧
    process_input env sh n "&&".toList = ⟨[[]], n, false⟩ ∧
    process_input env sh n ";;\n".toList =
      ⟨[[⟨"\n".toList, some ⟨Outcome.returned 0, [], n⟩⟩]], n, false⟩ ∧
    process_input env sh n "&&\n".toList =
      ⟨[[⟨"\n".toList, some ⟨Outcome.returned 0, [], n⟩⟩]], n, false⟩ := by
  have hb : ∀ c ∈ cmd, c ∈ " \t\n".toList := by
    intro c hc
    rcases h c hc with h1 | h1 | h1 <;> simp [h1]
  refine ⟨execute_simple_blank env sh n sin sout cmd hb,
    and_loop_blank_cons env sh n cmd rest hb, ?_, rfl, rfl, rfl, rfl⟩
  intro line hline
  rw [process_input_blank env sh n line hline]
  refine ⟨events_of_blank_log n _ _ n false, rfl, rfl, ?_⟩
  intro seg hseg q hq
  simp only [List.mem_map] at hseg
  obtain ⟨tok, _, hseg⟩ := hseg
  rw [← hseg] at hq
  simp only [List.mem_map] at hq
  obtain ⟨t, _, hq⟩ := hq
  rw [← hq]

/-- Witness for C7: the conjunct text made of a space, a tab and a newline. -/
theorem empty_conjunct_noop_witness :
    execute_simple env_false_fails Shell.init 0 Chan.own_stdin Chan.own_stdout " \t\n".toList =
      ⟨Outcome.returned 0, [], 0⟩ :=
  (empty_conjunct_noop env_false_fails Shell.init 0 Chan.own_stdin Chan.own_stdout
    " \t\n".toList [] (by decide)).1

/-- C8: when the line read is a single newline, the iteration of the main loop
leaves the history array and count unchanged, does not call `process_input`,
starts no program, and the loop goes on. -/
theorem empty_line_ignored (env : Env) (sh : Shell) (n : Nat) :
    main_iteration env sh n (some "\n".toList) = ⟨sh, none, n, true⟩ ∧
    (main_iteration env sh n (some "\n".toList)).shell.history = sh.history ∧
    (main_iteration env sh n (some "\n".toList)).shell.history_count = sh.history_count ∧
    (main_iteration env sh n (some "\n".toList)).called = none := by
  refine ⟨?_, ?_, ?_, ?_⟩ <;> simp [main_iteration]

/-! ### The `exit` built-in -/

theorem and_loop_exit_last (env : Env) (sh : Shell) (toks : List Str) (n : Nat) (b : Bool)
    (pre post : List ConjRecord) (r : ConjRecord) (e : ExecResult) (code : Nat)
    (hlog : (and_loop env sh n b toks).log = pre ++ r :: post) (hrun : r.run = some e)
    (hout : e.outcome = Outcome.exited code) :
    post = [] ∧ (and_loop env sh n b toks).exited = true := by
  induction toks generalizing n b pre with
  | nil => simp [and_loop] at hlog
  | cons t ts ih =>
    cases b with
    | false =>
      exfalso
      rw [and_loop_false] at hlog
      simp only [] at hlog
      have hmem : r ∈ List.map (fun t => (⟨t, none⟩ : ConjRecord)) (t :: ts) := by
        rw [hlog]; simp
      obtain ⟨x, _, hx⟩ := List.mem_map.1 hmem
      rw [← hx] at hrun
      simp at hrun
    | true =>
      simp only [and_loop, if_true] at hlog ⊢
      split at hlog
      · rename_i c hc
        simp only [hc]
        cases pre with
        | nil =>
          simp only [List.nil_append, List.cons.injEq] at hlog
          exact ⟨hlog.2.symm, trivial⟩
        | cons p ps => simp at hlog
      · rename_i status hst
        simp only [hst]
        cases pre with
        | nil =>
          exfalso
          simp only [List.nil_append, List.cons.injEq] at hlog
          rw [← hlog.1] at hrun
          simp only [Option.some.injEq] at hrun
          rw [← hrun, hst] at hout
          cases hout
        | cons p ps =>
          simp only [List.cons_append, List.cons.injEq] at hlog
          exact ih _ _ ps hlog.2

theorem seg_loop_exit_last (env : Env) (sh : Shell) (segs : List Str) (n : Nat)
    (spre spost : List (List ConjRecord)) (pre post : List ConjRecord) (r : ConjRecord)
    (e : ExecResult) (code : Nat)
    (hlog : (seg_loop env sh n segs).log = spre ++ (pre ++ r :: post) :: spost)
    (hrun : r.run = some e) (hout : e.outcome = Outcome.exited code) :
    post = [] ∧ spost = [] ∧ (seg_loop env sh n segs).exited = true := by
  induction segs generalizing n spre with
  | nil => simp [seg_loop] at hlog
  | cons tok rest ih =>
    simp only [seg_loop] at hlog ⊢
    split at hlog
    · rename_i hex
      simp only [hex, if_true]
      cases spre with
      | nil =>
        simp only [List.nil_append, List.cons.injEq] at hlog
        exact ⟨(and_loop_exit_last env sh _ n true pre post r e code hlog.1 hrun hout).1,
          hlog.2.symm, trivial⟩
      | cons x xs => simp at hlog
    · rename_i hex
      simp only [hex]
      cases spre with
      | nil =>
        exfalso
        simp only [List.nil_append, List.cons.injEq] at hlog
        exact hex (and_loop_exit_last env sh _ n true pre post r e code hlog.1 hrun hout).2
      | cons x xs =>
        simp only [List.cons_append, List.cons.injEq] at hlog
        exact ih _ xs hlog.2

theorem run_conjunct_exit (env : Env) (sh : Shell) (m : Nat) (text : Str) (hbar : '|' ∉ text)
    (hexit : (resolve text).args.head? = some "exit".toList) :
    run_conjunct env sh m text = ⟨Outcome.exited 0, [], m⟩ := by
  simp only [run_conjunct, if_neg hbar, execute_simple]
  cases hargs : (resolve text).args with
  | nil => rw [hargs] at hexit; simp at hexit
  | cons a rest =>
    rw [hargs] at hexit
    simp only [List.head?_cons, Option.some.injEq] at hexit
    simp only [if_pos hexit]

/-- C9, as stated, fails: in the line `false && exit ; echo hi` the second
conjunct has `exit` as its first plain argument, yet it is skipped because
`false` returned 1; the interpreter goes on and `echo hi` is started. -/
theorem exit_skipped_counterexample :
    " exit ".toList ∈ strtok_tokens "&&".toList "false && exit ".toList ∧
    (resolve " exit ".toList).args.head? = some "exit".toList ∧
    (process_input env_false_fails Shell.init 0
      "false && exit ; echo hi\n".toList).exited = false ∧
    spawned (process_input env_false_fails Shell.init 0
      "false && exit ; echo hi\n".toList).events =
      [⟨["false".toList], none, none, false⟩,
       ⟨["echo".toList, "hi".toList], none, none, false⟩] := by
  decide

/-- C9, amended: a conjunct that `process_input` executes, that contains no
`|`, and whose first plain argument is `exit` terminates the interpreter at
once with status 0: it causes no event, no later conjunct of its segment and
no later `;`-segment is executed, and the main loop stops. -/
theorem exit_conjunct_terminates (env : Env) (sh : Shell) (n : Nat) (line : Str)
    (spre spost : List (List ConjRecord)) (pre post : List ConjRecord) (r : ConjRecord)
    (e : ExecResult)
    (hlog : (process_input env sh n line).log = spre ++ (pre ++ r :: post) :: spost)
    (hrun : r.run = some e) (hbar : '|' ∉ r.text)
    (hexit : (resolve r.text).args.head? = some "exit".toList) :
    e.outcome = Outcome.exited 0 ∧ e.events = [] ∧ post = [] ∧ spost = [] ∧
    (process_input env sh n line).exited = true ∧
    (∀ sh0, sh = add_to_history sh0 line → line ≠ "\n".toList →
      (main_iteration env sh0 n (some line)).running = false) := by
  have hseg : (pre ++ r :: post) ∈ (process_input env sh n line).log := by
    rw [hlog]; simp
  obtain ⟨m, tok, _, hand⟩ := seg_loop_mem env sh _ n _ hseg
  obtain ⟨k, hk⟩ := and_loop_run env sh (strtok_tokens "&&".toList tok) m true r
    (by rw [← hand]; simp) e hrun
  rw [run_conjunct_exit env sh k r.text hbar hexit] at hk
  have hout : e.outcome = Outcome.exited 0 := by rw [hk]
  have hlast := seg_loop_exit_last env sh _ n spre spost pre post r e 0 hlog hrun hout
  refine ⟨hout, by rw [hk], hlast.1, hlast.2.1, hlast.2.2, ?_⟩
  intro sh0 hsh hne
  rw [main_iteration_nonempty env sh0 n line hne, ← hsh]
  have hex : (process_input env sh n line).exited = true := hlast.2.2
  simp [hex]

/-- Witness for C9 amended on the line `ls ; exit ; echo hi`: the interpreter
terminates at `exit`. -/
theorem exit_conjunct_terminates_witness :
    (process_input env_false_fails Shell.init 0 "ls ; exit ; echo hi\n".toList).exited = true :=
  (exit_conjunct_terminates env_false_fails Shell.init 0 "ls ; exit ; echo hi\n".toList
    [[⟨"ls ".toList, some ⟨Outcome.returned 0,
        [Event.spawn ⟨["ls".toList], none, none, false⟩ Chan.own_stdin Chan.own_stdout], 1⟩⟩]]
    [] [] [] ⟨" exit ".toList, some ⟨Outcome.exited 0, [], 1⟩⟩ ⟨Outcome.exited 0, [], 1⟩
    (by decide) rfl (by decide) (by decide)).2.2.2.2.1

/-! ### Redirected `history` -/

/-- C10: the failing behaviour. On the line `history > f` the resolver records
`f` as output file, but the built-in prints the listing to the standard output
of the calling process, here the interpreter's own; no program is started and
no child runs the code that opens `f`. -/
theorem history_ignores_redirection (env : Env) (sh0 : Shell) (n : Nat) :
    (resolve "history > f\n".toList) = ⟨["history".toList], none, some "f".toList, false⟩ ∧
    process_input env sh0 n "history > f\n".toList =
      ⟨[[⟨"history > f\n".toList,
          some ⟨Outcome.returned 0, print_history sh0 Chan.own_stdout, n⟩⟩]], n, false⟩ ∧
    (main_iteration env Shell.init n (some "history > f\n".toList)).called.map
        InputResult.events =
      some [Event.write Chan.own_stdout "1: history > f\n".toList] := by
  refine ⟨by decide, rfl, ?_⟩
  rw [main_iteration_nonempty env _ n _ (by decide)]
  rfl

/-! ### Redirections of a pipeline stage -/

theorem execute_simple_events (env : Env) (sh : Shell) (n : Nat) (sin sout : Chan) (cmd : Str) :
    (execute_simple env sh n sin sout cmd).events = [] ∨
    (execute_simple env sh n sin sout cmd).events = print_history sh sout ∨
    (execute_simple env sh n sin sout cmd).events = [Event.spawn (resolve cmd) sin sout] := by
  simp only [execute_simple]
  cases (resolve cmd).args with
  | nil => exact Or.inl rfl
  | cons a rest =>
    simp only []
    by_cases h1 : a = "exit".toList
    · rw [if_pos h1]; exact Or.inl rfl
    · rw [if_neg h1]
      by_cases h2 : a = "history".toList
      · rw [if_pos h2]; exact Or.inr (Or.inl rfl)
      · rw [if_neg h2]; exact Or.inr (Or.inr rfl)

theorem execute_simple_spawn (env : Env) (sh : Shell) (n : Nat) (sin sout : Chan) (cmd : Str)
    (c : Command) (a b : Chan)
    (h : Event.spawn c a b ∈ (execute_simple env sh n sin sout cmd).events) :
    c = resolve cmd ∧ a = sin ∧ b = sout := by
  rcases execute_simple_events env sh n sin sout cmd with he | he | he
  · rw [he] at h; simp at h
  · rw [he] at h; simp [print_history] at h
  · rw [he] at h
    simp only [List.mem_singleton, Event.spawn.injEq] at h
    exact h

theorem stage_loop_spawn (env : Env) (sh : Shell) (sin sout : Chan) (num_cmds : Nat)
    (cmds : List Str) (i : Nat) (st : PipeState) (hnum : num_cmds = i + cmds.length)
    (hprev : st.prev_fd = if i = 0 then none else some (i - 1))
    (c : Command) (a b : Chan)
    (h : Event.spawn c a b ∈ (stage_loop env sh sin sout num_cmds i cmds st).events) :
    Event.spawn c a b ∈ st.events ∨
    ∃ k text, cmds[k]? = some text ∧ c = resolve text ∧ a = stage_stdin sin (i + k) ∧
      b = stage_stdout sout num_cmds (i + k) := by
  induction cmds generalizing i st with
  | nil => exact Or.inl (by simpa [stage_loop] using h)
  | cons cmd rest ih =>
    simp only [stage_loop] at h
    have hin : (match st.prev_fd with
        | none => sin
        | some k => Chan.pipe_read k) = stage_stdin sin i := by
      rw [hprev]
      by_cases hi : i = 0 <;> simp [stage_stdin, hi]
    have hout : (if decide (i < num_cmds - 1) = true then Chan.pipe_write i else sout) =
        stage_stdout sout num_cmds i := by
      simp [stage_stdout]
    rw [hin, hout] at h
    have hstep : Event.spawn c a b ∈ st.events ++ (if decide (i < num_cmds - 1) = true
            then [Event.pipe_created i] else []) ++ [Event.fork_stage i] ++
          (execute_simple env sh st.started (stage_stdin sin i)
            (stage_stdout sout num_cmds i) cmd).events ++ [Event.wait_stage i] →
        Event.spawn c a b ∈ st.events ∨
          (c = resolve cmd ∧ a = stage_stdin sin i ∧ b = stage_stdout sout num_cmds i) := by
      intro hmem
      simp only [List.mem_append, List.mem_singleton] at hmem
      rcases hmem with (((hm | hm) | hm) | hm) | hm
      · exact Or.inl hm
      · split at hm <;> simp at hm
      · cases hm
      · exact Or.inr (execute_simple_spawn env sh _ _ _ cmd c a b hm)
      · cases hm
    cases rest with
    | nil =>
      simp only [stage_loop] at h
      rcases hstep h with hm | hm
      · exact Or.inl hm
      · exact Or.inr ⟨0, cmd, by simp, by simpa using hm⟩
    | cons cmd2 rest2 =>
      have hnext : i < num_cmds - 1 := by
        simp only [List.length_cons] at hnum
        omega
      rcases ih (i + 1) _ (by simp only [List.length_cons] at hnum ⊢; omega)
          (by simp [hnext]) h with hm | ⟨k, text, hk, hc, ha, hb⟩
      · rcases hstep hm with hm2 | hm2
        · exact Or.inl hm2
        · exact Or.inr ⟨0, cmd, by simp, by simpa using hm2⟩
      · refine Or.inr ⟨k + 1, text, by simpa using hk, hc, ?_, ?_⟩
        · rw [ha]; congr 1; omega
        · rw [hb]; congr 1; omega

theorem child_output_exec (opens : Str → OpenMode → Bool) (c : Command) (x0 : Installed)
    (sout : Chan) (args : List Str) (x y : Installed)
    (h : child_output opens c x0 sout = ChildStart.exec args x y) :
    args = c.args ∧ x = x0 ∧
    (∀ f, c.output_file = some f → y = Installed.file f (output_mode c.append)) ∧
    (c.output_file = none → y = Installed.inherited sout) := by
  unfold child_output at h
  cases hout : c.output_file with
  | none =>
    rw [hout] at h
    simp only [ChildStart.exec.injEq] at h
    exact ⟨h.1.symm, h.2.1.symm, fun f hf => (by cases hf), fun _ => h.2.2.symm⟩
  | some f =>
    rw [hout] at h
    simp only [] at h
    split at h
    · simp only [ChildStart.exec.injEq] at h
      refine ⟨h.1.symm, h.2.1.symm, fun g hg => ?_, fun hn => by cases hn⟩
      simp only [Option.some.injEq] at hg
      rw [← hg]; exact h.2.2.symm
    · cases h

/-- C11: every program a pipeline starts is started by the child of a stage
whose standard input is the read end of the previous pipe (the input of
`execute_piped` for the first stage) and whose standard output is the write
end of the next pipe (the output of `execute_piped` for the last stage). When
`execvp` is reached, standard input is the file named after `<` if the stage
has one, else that inherited endpoint, and standard output is the file named
after `>` or `>>` (truncating or appending) if it has one, else the inherited
endpoint; and `execvp` is reached whenever the declared files open. -/
theorem explicit_redirection_beats_pipe (env : Env) (sh : Shell) (n : Nat) (sin sout : Chan)
    (cmdline : Str) (opens : Str → OpenMode → Bool) (c : Command) (a b : Chan)
    (hev : Event.spawn c a b ∈ (execute_piped env sh n sin sout cmdline).events) :
    (∃ k text, (collect_cmds (strtok_tokens "|".toList cmdline) [])[k]? = some text ∧
      c = resolve text ∧ a = stage_stdin sin k ∧
      b = stage_stdout sout (collect_cmds (strtok_tokens "|".toList cmdline) []).length k) ∧
    (∀ args x y, child_start opens c a b = ChildStart.exec args x y →
      args = c.args ∧
      (∀ f, c.input_file = some f → x = Installed.file f OpenMode.read_only) ∧
      (c.input_file = none → x = Installed.inherited a) ∧
      (∀ f, c.output_file = some f → y = Installed.file f (output_mode c.append)) ∧
      (c.output_file = none → y = Installed.inherited b)) ∧
    ((∀ f, c.input_file = some f → opens f OpenMode.read_only = true) →
      (∀ f, c.output_file = some f → opens f (output_mode c.append) = true) →
      ∃ x y, child_start opens c a b = ChildStart.exec c.args x y) := by
  refine ⟨?_, ?_, ?_⟩
  · simp only [execute_piped] at hev
    rcases stage_loop_spawn env sh sin sout _ _ 0 _ (by simp) (by simp) c a b hev with hm | hm
    · simp at hm
    · obtain ⟨k, text, hk, hc, ha, hb⟩ := hm
      exact ⟨k, text, hk, hc, by simpa using ha, by simpa using hb⟩
  · intro args x y hstart
    unfold child_start at hstart
    cases hin : c.input_file with
    | none =>
      rw [hin] at hstart
      obtain ⟨h1, h2, h3, h4⟩ := child_output_exec opens c _ b args x y hstart
      exact ⟨h1, fun f hf => (by cases hf), fun _ => h2, h3, h4⟩
    | some f =>
      rw [hin] at hstart
      simp only [] at hstart
      split at hstart
      · obtain ⟨h1, h2, h3, h4⟩ := child_output_exec opens c _ b args x y hstart
        refine ⟨h1, fun g hg => ?_, fun hn => (by cases hn), h3, h4⟩
        simp only [Option.some.injEq] at hg
        rw [← hg]; exact h2
      · cases hstart
  · intro hopen_in hopen_out
    unfold child_start child_output
    cases hin : c.input_file with
    | none =>
      cases hout : c.output_file with
      | none => exact ⟨_, _, rfl⟩
      | some g => simp only [hopen_out g hout, if_true]; exact ⟨_, _, rfl⟩
    | some f =>
      simp only [hopen_in f hin, if_true]
      cases hout : c.output_file with
      | none => exact ⟨_, _, rfl⟩
      | some g => simp only [hopen_out g hout, if_true]; exact ⟨_, _, rfl⟩

/-- Witness for C11 on the pipeline `a | cat < f >> g | b`: the middle stage
inherits both pipe ends and is started on the files `f` and `g`. -/
theorem explicit_redirection_beats_pipe_witness :
    Event.spawn ⟨["cat".toList], some "f".toList, some "g".toList, true⟩
        (Chan.pipe_read 0) (Chan.pipe_write 1) ∈
      (execute_piped env_false_fails Shell.init 0 Chan.own_stdin Chan.own_stdout
        "a | cat < f >> g | b\n".toList).events ∧
    ∃ x y, child_start (fun _ _ => true)
        ⟨["cat".toList], some "f".toList, some "g".toList, true⟩
        (Chan.pipe_read 0) (Chan.pipe_write 1) =
      ChildStart.exec ["cat".toList] x y :=
  ⟨by decide,
   (explicit_redirection_beats_pipe env_false_fails Shell.init 0 Chan.own_stdin
      Chan.own_stdout "a | cat < f >> g | b\n".toList (fun _ _ => true)
      ⟨["cat".toList], some "f".toList, some "g".toList, true⟩
      (Chan.pipe_read 0) (Chan.pipe_write 1) (by decide)).2.2
      (fun _ _ => rfl) (fun _ _ => rfl)⟩

/-! ### Splitting of a segment into conjuncts -/

theorem strtok_scan_congr (d1 d2 : Str) (h : ∀ c, c ∈ d1 ↔ c ∈ d2) (s cur : Str) :
    strtok_scan d1 s cur = strtok_scan d2 s cur := by
  induction s generalizing cur with
  | nil => rfl
  | cons c cs ih =>
    by_cases hc : c ∈ d1
    · have hc2 : c ∈ d2 := (h c).1 hc
      simp only [strtok_scan, if_pos hc, if_pos hc2, ih]
    · have hc2 : c ∉ d2 := fun hx => hc ((h c).2 hx)
      simp only [strtok_scan, if_neg hc, if_neg hc2, ih]

/-- C12: the failing behaviour. `strtok_r` takes `"&&"` as a set of delimiter
characters, so a segment is split at every single `&`: the conjuncts
`process_input` executes are the pieces between `&` characters. The segment
`echo a & echo b` contains no `&&` and is one conjunct in the spec wording, but
the code runs `echo a` and then `echo b` as two conjuncts. -/
theorem single_ampersand_splits :
    (∀ seg : Str, strtok_tokens "&&".toList seg = strtok_tokens "&".toList seg) ∧
    spec_conjuncts "echo a & echo b\n".toList = ["echo a & echo b\n".toList] ∧
    strtok_tokens "&&".toList "echo a & echo b\n".toList =
      ["echo a ".toList, " echo b\n".toList] ∧
    (process_input env_false_fails Shell.init 0 "echo a & echo b\n".toList).log.map
        (fun seg => seg.map ConjRecord.text) =
      [["echo a ".toList, " echo b\n".toList]] ∧
    spawned (process_input env_false_fails Shell.init 0 "echo a & echo b\n".toList).events =
      [⟨["echo".toList, "a".toList], none, none, false⟩,
       ⟨["echo".toList, "b".toList], none, none, false⟩] := by
  refine ⟨?_, by decide, by decide, by decide, by decide⟩
  intro seg
  exact strtok_scan_congr _ _ (by intro c; simp) seg []

/-! ### Order of fork and wait in a pipeline -/

theorem parent_fork_wait_append (xs ys : List Event) :
    parent_fork_wait (xs ++ ys) = parent_fork_wait xs ++ parent_fork_wait ys := by
  simp [parent_fork_wait]

theorem parent_fork_wait_execute_simple (env : Env) (sh : Shell) (n : Nat) (sin sout : Chan)
    (cmd : Str) : parent_fork_wait (execute_simple env sh n sin sout cmd).events = [] := by
  rcases execute_simple_events env sh n sin sout cmd with he | he | he
  · rw [he]; rfl
  · rw [he]
    simp [parent_fork_wait, print_history, List.filter_eq_nil_iff]
  · rw [he]; rfl

theorem parent_fork_wait_stage_loop (env : Env) (sh : Shell) (sin sout : Chan) (num_cmds : Nat)
    (cmds : List Str) (i : Nat) (st : PipeState) :
    parent_fork_wait (stage_loop env sh sin sout num_cmds i cmds st).events =
      parent_fork_wait st.events ++ fork_wait_alternating i cmds.length := by
  induction cmds generalizing i st with
  | nil => simp [stage_loop, fork_wait_alternating]
  | cons cmd rest ih =>
    simp only [stage_loop]
    rw [ih]
    simp only [parent_fork_wait_append, parent_fork_wait_execute_simple, List.length_cons,
      fork_wait_alternating]
    have hpipe : parent_fork_wait (if decide (i < num_cmds - 1) = true
        then [Event.pipe_created i] else []) = [] := by
      split <;> rfl
    rw [hpipe]
    simp [parent_fork_wait]

theorem forks_before_waits_filter (evs : List Event) :
    forks_before_waits evs = forks_before_waits (parent_fork_wait evs) := by
  induction evs with
  | nil => rfl
  | cons e rest ih =>
    cases e with
    | wait_stage k =>
      simp only [parent_fork_wait, List.filter_cons, if_true, forks_before_waits]
      rw [Bool.eq_iff_iff]
      simp only [List.all_eq_true, List.mem_filter]
      constructor
      · intro h x hx; exact h x hx.1
      · intro h x hx
        cases x with
        | fork_stage j => exact h _ ⟨hx, rfl⟩
        | wait_stage j => rfl
        | pipe_created j => rfl
        | spawn c a b => rfl
        | write o t => rfl
    | fork_stage k =>
      simp only [parent_fork_wait, List.filter_cons, if_true, forks_before_waits]
      exact ih
    | pipe_created k =>
      simp only [parent_fork_wait, List.filter_cons, forks_before_waits]
      exact ih
    | spawn c a b =>
      simp only [parent_fork_wait, List.filter_cons, forks_before_waits]
      exact ih
    | write o t =>
      simp only [parent_fork_wait, List.filter_cons, forks_before_waits]
      exact ih

/-- C13, as stated, fails: in the pipeline `a | b` the parent waits for stage 0
before it forks stage 1. -/
theorem launch_before_wait_counterexample :
    (collect_cmds (strtok_tokens "|".toList "a | b\n".toList) []).length = 2 ∧
    parent_fork_wait (execute_piped env_false_fails Shell.init 0 Chan.own_stdin
        Chan.own_stdout "a | b\n".toList).events =
      [Event.fork_stage 0, Event.wait_stage 0, Event.fork_stage 1, Event.wait_stage 1] ∧
    forks_before_waits (execute_piped env_false_fails Shell.init 0 Chan.own_stdin
        Chan.own_stdout "a | b\n".toList).events = false := by
  decide

/-- C13, amended: for every pipeline of N stages the parent's fork and wait
events in `execute_piped` alternate, fork of stage 0, wait on stage 0, fork of
stage 1, wait on stage 1, and so on: each stage is waited for before the next
one is forked, so for N >= 2 some fork comes after the first wait. -/
theorem fork_wait_alternate (env : Env) (sh : Shell) (n : Nat) (sin sout : Chan)
    (cmdline : Str) :
    parent_fork_wait (execute_piped env sh n sin sout cmdline).events =
      fork_wait_alternating 0 (collect_cmds (strtok_tokens "|".toList cmdline) []).length ∧
    (2 ≤ (collect_cmds (strtok_tokens "|".toList cmdline) []).length →
      forks_before_waits (execute_piped env sh n sin sout cmdline).events = false) := by
  have hseq : parent_fork_wait (execute_piped env sh n sin sout cmdline).events =
      fork_wait_alternating 0 (collect_cmds (strtok_tokens "|".toList cmdline) []).length := by
    simp only [execute_piped]
    rw [parent_fork_wait_stage_loop]
    simp [parent_fork_wait]
  refine ⟨hseq, ?_⟩
  intro hN
  rw [forks_before_waits_filter, hseq]
  obtain ⟨m, hm⟩ : ∃ m, (collect_cmds (strtok_tokens "|".toList cmdline) []).length = m + 2 :=
    ⟨_, (Nat.sub_add_cancel hN).symm⟩
  rw [hm]
  simp [fork_wait_alternating, forks_before_waits, is_fork_stage]

/-- Witness for C13 amended on the pipeline `a | b`. -/
theorem fork_wait_alternate_witness :
    forks_before_waits (execute_piped env_false_fails Shell.init 0 Chan.own_stdin
        Chan.own_stdout "a | b\n".toList).events = false :=
  (fork_wait_alternate env_false_fails Shell.init 0 Chan.own_stdin Chan.own_stdout
    "a | b\n".toList).2 (by decide)

/-! ### Dangling redirection operators -/

theorem op_follows_op_init (l : List Str) (t : Str) (h : op_follows_op (l ++ [t]) = false) :
    op_follows_op l = false := by
  induction l with
  | nil => rfl
  | cons x l ih =>
    cases l with
    | nil => rfl
    | cons y l2 =>
      simp only [List.cons_append, op_follows_op, Bool.or_eq_false_iff] at h ⊢
      exact ⟨h.1, ih h.2⟩

theorem spec_plain_args_snoc_op (l : List Str) (t : Str) (b : Bool)
    (ht : is_redir_op t = true) : spec_plain_args b (l ++ [t]) = spec_plain_args b l := by
  induction l generalizing b with
  | nil => simp [spec_plain_args, ht]
  | cons x l ih =>
    simp only [List.cons_append, spec_plain_args, List.append_eq, ih]

theorem spec_last_op_snoc_hit (p : Str → Bool) (l : List Str) (t : Str) (ht : p t = true) :
    spec_last_op p (l ++ [t]) = some (t, none) := by
  induction l with
  | nil => simp [spec_last_op, ht]
  | cons x l ih => simp only [List.cons_append, spec_last_op, List.append_eq, ih]

theorem spec_last_op_snoc_skip (p : Str → Bool) (l : List Str) (t : Str) (ht : p t = false)
    (hop : is_redir_op t = true) (hp : ∀ x, p x = true → is_redir_op x = true)
    (hadj : op_follows_op (l ++ [t]) = false) :
    spec_last_op p (l ++ [t]) = spec_last_op p l := by
  induction l with
  | nil => simp [spec_last_op, ht]
  | cons x l ih =>
    have hadj2 : op_follows_op (l ++ [t]) = false := op_follows_op_tail x _ hadj
    have ih2 := ih hadj2
    cases l with
    | nil =>
      have hx : is_redir_op x = false := by
        simp only [List.nil_append, List.cons_append, op_follows_op, Bool.or_false,
          Bool.and_eq_false_iff] at hadj
        rcases hadj with h1 | h1
        · exact h1
        · rw [hop] at h1; cases h1
      have hpx : p x = false := by
        cases hpx : p x with
        | false => rfl
        | true => rw [hp x hpx] at hx; cases hx
      simp [spec_last_op, hpx, ht]
    | cons y l2 =>
      simp only [List.cons_append] at ih2 ⊢
      rw [spec_last_op, ih2]
      conv => rhs; rw [spec_last_op]
      simp

theorem is_redir_op_cases (op : Str) (hop : is_redir_op op = true) :
    op = "<".toList ∨ op = ">".toList ∨ op = ">>".toList := by
  simp only [is_redir_op, Bool.or_eq_true, decide_eq_true_eq] at hop
  rcases hop with (h | h) | h
  · exact Or.inl h
  · exact Or.inr (Or.inl h)
  · exact Or.inr (Or.inr h)

theorem input_op_is_redir (x : Str) (h : is_input_op x = true) : is_redir_op x = true := by
  simp only [is_input_op, decide_eq_true_eq] at h
  rw [h]; decide

theorem output_op_is_redir (x : Str) (h : is_output_op x = true) : is_redir_op x = true := by
  simp only [is_output_op, Bool.or_eq_true, decide_eq_true_eq] at h
  rcases h with h | h <;> rw [h] <;> decide

/-- A dangling operator at the end of the tokens, when it is reached as an
operator: its direction is reset to NULL, everything else is as the tokens
before it left it (`append` follows a dangling output operator). -/
theorem token_loop_dangling (init : List Str) (op : Str) (c : Command)
    (hop : is_redir_op op = true)
    (hlen : c.args.length + (spec_plain_args false (init ++ [op])).length ≤ 62)
    (hadj : op_follows_op (init ++ [op]) = false) :
    token_loop (init ++ [op]) c =
      ⟨(token_loop init c).args,
       if is_input_op op then none else (token_loop init c).input_file,
       if is_output_op op then none else (token_loop init c).output_file,
       if is_output_op op then decide (op = ">>".toList) else (token_loop init c).append⟩ := by
  have hpl := spec_plain_args_snoc_op init op false hop
  rw [token_loop_spec (init ++ [op]) c hlen hadj,
    token_loop_spec init c (by rw [← hpl]; exact hlen) (op_follows_op_init init op hadj), hpl]
  rcases is_redir_op_cases op hop with h | h | h
  · subst h
    rw [spec_last_op_snoc_hit is_input_op init _ (by decide),
      spec_last_op_snoc_skip is_output_op init _ (by decide) (by decide) output_op_is_redir hadj]
    simp [is_input_op, is_output_op]
  · subst h
    rw [spec_last_op_snoc_hit is_output_op init _ (by decide),
      spec_last_op_snoc_skip is_input_op init _ (by decide) (by decide) input_op_is_redir hadj]
    simp [is_input_op, is_output_op]
  · subst h
    rw [spec_last_op_snoc_hit is_output_op init _ (by decide),
      spec_last_op_snoc_skip is_input_op init _ (by decide) (by decide) input_op_is_redir hadj]
    simp [is_input_op, is_output_op]

theorem token_loop_input (f : Str) (rest : List Str) (c : Command)
    (h : c.args.length < MAX_ARGS - 1) :
    token_loop ("<".toList :: f :: rest) c =
      token_loop rest ⟨c.args, some f, c.output_file, c.append⟩ := by
  rw [token_loop.eq_def]
  simp only [h, if_true]

theorem token_loop_output (f : Str) (rest : List Str) (c : Command)
    (h : c.args.length < MAX_ARGS - 1) :
    token_loop (">".toList :: f :: rest) c =
      token_loop rest ⟨c.args, c.input_file, some f, false⟩ := by
  rw [token_loop.eq_def]
  simp only [h, if_true, if_neg (show ¬ ">".toList = "<".toList by decide)]

theorem replicate_plain (k : Nat) : ∀ t ∈ List.replicate k "a".toList, is_redir_op t = false := by
  intro t ht
  rw [List.eq_of_mem_replicate ht]
  decide

/-- C14, as stated, fails. In `< f` followed by 63 plain arguments and a last
`<`, the loop stops at the 63rd argument and the input file stays `f`; and in
`cat < a > <` the last `<` is taken as the file name of `>`, so the input file
stays `a` and the output file is `<`. -/
theorem dangling_operator_counterexample :
    (token_loop ("<".toList :: "f".toList :: (List.replicate 63 "a".toList ++ ["<".toList]))
        ⟨[], none, none, false⟩).input_file = some "f".toList ∧
    (token_loop ["cat".toList, "<".toList, "a".toList, ">".toList, "<".toList]
        ⟨[], none, none, false⟩).input_file = some "a".toList ∧
    (token_loop ["cat".toList, "<".toList, "a".toList, ">".toList, "<".toList]
        ⟨[], none, none, false⟩).output_file = some "<".toList := by
  refine ⟨?_, by decide, by decide⟩
  rw [token_loop_input _ _ _ (by decide),
    token_loop_plain_run _ _ _ (replicate_plain 63) (by simp [MAX_ARGS]),
    token_loop_full _ _ (by simp [MAX_ARGS])]

/-- C14, amended: for every token list with at most 62 plain arguments whose
last token is `<`, `>` or `>>` and in which no redirection operator directly
follows another, the argument vector is exactly the plain arguments of the
tokens before the dangling operator, the field of the operator's direction is
NULL, and the field of the other direction is what the preceding tokens set. -/
theorem dangling_operator_dropped (init : List Str) (op : Str)
    (hop : is_redir_op op = true)
    (hlen : (spec_plain_args false (init ++ [op])).length ≤ 62)
    (hadj : op_follows_op (init ++ [op]) = false) :
    (token_loop (init ++ [op]) ⟨[], none, none, false⟩).args = spec_plain_args false init ∧
    (token_loop (init ++ [op]) ⟨[], none, none, false⟩).args =
      (token_loop init ⟨[], none, none, false⟩).args ∧
    (op = "<".toList →
      (token_loop (init ++ [op]) ⟨[], none, none, false⟩).input_file = none ∧
      (token_loop (init ++ [op]) ⟨[], none, none, false⟩).output_file =
        (token_loop init ⟨[], none, none, false⟩).output_file) ∧
    (op = ">".toList ∨ op = ">>".toList →
      (token_loop (init ++ [op]) ⟨[], none, none, false⟩).output_file = none ∧
      (token_loop (init ++ [op]) ⟨[], none, none, false⟩).input_file =
        (token_loop init ⟨[], none, none, false⟩).input_file) := by
  have hd := token_loop_dangling init op ⟨[], none, none, false⟩ hop (by simpa using hlen) hadj
  have hpl := spec_plain_args_snoc_op init op false hop
  have hinit := token_loop_spec init ⟨[], none, none, false⟩
    (by rw [← hpl]; simpa using hlen) (op_follows_op_init init op hadj)
  refine ⟨?_, ?_, ?_, ?_⟩
  · rw [hd]
    simp only []
    rw [hinit]
    simp
  · rw [hd]
  · intro h
    subst h
    rw [hd]
    exact ⟨rfl, rfl⟩
  · intro h
    rcases h with h | h <;> subst h <;> rw [hd] <;> exact ⟨rfl, rfl⟩

/-- Witness for C14 amended on the tokens of `cat < a -n >>`. -/
theorem dangling_operator_dropped_witness :
    (token_loop (["cat".toList, "<".toList, "a".toList, "-n".toList] ++ [">>".toList])
        ⟨[], none, none, false⟩).output_file = none ∧
    (token_loop (["cat".toList, "<".toList, "a".toList, "-n".toList] ++ [">>".toList])
        ⟨[], none, none, false⟩).input_file =
      (token_loop ["cat".toList, "<".toList, "a".toList, "-n".toList]
        ⟨[], none, none, false⟩).input_file :=
  (dangling_operator_dropped ["cat".toList, "<".toList, "a".toList, "-n".toList] ">>".toList
    (by decide) (by decide) (by decide)).2.2.2 (Or.inr rfl)

/-- C16, as stated, fails. In `> f` followed by 63 plain arguments and a last
`>>`, the loop never reaches the last operator: the output file stays `f` and
the result is the same as without the dangling operator. In `echo > f < >>`
the last `>>` is taken as the file name of `<` and the output file stays `f`. -/
theorem dangling_erases_counterexample :
    (token_loop (">".toList :: "f".toList :: List.replicate 63 "a".toList)
        ⟨[], none, none, false⟩).output_file = some "f".toList ∧
    token_loop (">".toList :: "f".toList :: (List.replicate 63 "a".toList ++ [">>".toList]))
        ⟨[], none, none, false⟩ =
      token_loop (">".toList :: "f".toList :: List.replicate 63 "a".toList)
        ⟨[], none, none, false⟩ ∧
    (token_loop ["echo".toList, ">".toList, "f".toList, "<".toList]
        ⟨[], none, none, false⟩).output_file = some "f".toList ∧
    (token_loop ["echo".toList, ">".toList, "f".toList, "<".toList, ">>".toList]
        ⟨[], none, none, false⟩).output_file = some "f".toList := by
  have h1 : token_loop (">".toList :: "f".toList :: List.replicate 63 "a".toList)
      ⟨[], none, none, false⟩ =
      ⟨List.replicate 63 "a".toList, none, some "f".toList, false⟩ := by
    have hrun := token_loop_plain_run (List.replicate 63 "a".toList) []
      ⟨[], none, some "f".toList, false⟩ (replicate_plain 63) (by simp [MAX_ARGS])
    rw [List.append_nil] at hrun
    rw [token_loop_output _ _ _ (by decide), hrun, token_loop_full _ _ (by simp [MAX_ARGS])]
    simp
  have h2 : token_loop
      (">".toList :: "f".toList :: (List.replicate 63 "a".toList ++ [">>".toList]))
      ⟨[], none, none, false⟩ =
      ⟨List.replicate 63 "a".toList, none, some "f".toList, false⟩ := by
    rw [token_loop_output _ _ _ (by decide),
      token_loop_plain_run _ _ _ (replicate_plain 63) (by simp [MAX_ARGS]),
      token_loop_full _ _ (by simp [MAX_ARGS])]
    simp
  refine ⟨by rw [h1], by rw [h1, h2], by decide, by decide⟩

/-- C16, amended: for every token list with at most 62 plain arguments in
which no redirection operator directly follows another, if the tokens before
a last dangling operator set a file for its direction, the final field of that
direction is NULL: the earlier file name is discarded, and the result differs
from resolving the tokens without the dangling operator. -/
theorem dangling_operator_erases (init : List Str) (op f : Str)
    (hop : is_redir_op op = true)
    (hlen : (spec_plain_args false (init ++ [op])).length ≤ 62)
    (hadj : op_follows_op (init ++ [op]) = false) :
    (op = "<".toList → (token_loop init ⟨[], none, none, false⟩).input_file = some f →
      (token_loop (init ++ [op]) ⟨[], none, none, false⟩).input_file = none ∧
      token_loop (init ++ [op]) ⟨[], none, none, false⟩ ≠
        token_loop init ⟨[], none, none, false⟩) ∧
    (op = ">".toList ∨ op = ">>".toList →
      (token_loop init ⟨[], none, none, false⟩).output_file = some f →
      (token_loop (init ++ [op]) ⟨[], none, none, false⟩).output_file = none ∧
      token_loop (init ++ [op]) ⟨[], none, none, false⟩ ≠
        token_loop init ⟨[], none, none, false⟩) := by
  have hd := token_loop_dangling init op ⟨[], none, none, false⟩ hop (by simpa using hlen) hadj
  constructor
  · intro h hset
    subst h
    have hnone : (token_loop (init ++ ["<".toList]) ⟨[], none, none, false⟩).input_file =
        none := by rw [hd]; rfl
    refine ⟨hnone, fun heq => ?_⟩
    rw [heq, hset] at hnone
    cases hnone
  · intro h hset
    have hnone : (token_loop (init ++ [op]) ⟨[], none, none, false⟩).output_file = none := by
      rcases h with h | h <;> subst h <;> rw [hd] <;> rfl
    refine ⟨hnone, fun heq => ?_⟩
    rw [heq, hset] at hnone
    cases hnone

/-- Witness for C16 amended on the tokens of `cat < a <`. -/
theorem dangling_operator_erases_witness :
    (token_loop (["cat".toList, "<".toList, "a".toList] ++ ["<".toList])
        ⟨[], none, none, false⟩).input_file = none ∧
    token_loop (["cat".toList, "<".toList, "a".toList] ++ ["<".toList])
        ⟨[], none, none, false⟩ ≠
      token_loop ["cat".toList, "<".toList, "a".toList] ⟨[], none, none, false⟩ :=
  (dangling_operator_erases ["cat".toList, "<".toList, "a".toList] "<".toList "a".toList
    (by decide) (by decide) (by decide)).1 rfl (by decide)

/-! ### Bounds of the fixed arrays -/

theorem token_loop_writes_bound (toks : List Str) (i : Nat) (hi : i ≤ MAX_ARGS - 1) :
    ∀ j ∈ token_loop_writes toks i, j ≤ MAX_ARGS - 1 := by
  induction toks, i using token_loop_writes.induct with
  | case1 i => simp [token_loop_writes, hi]
  | case2 token i h hop =>
    rw [token_loop_writes.eq_def]
    simp only [h, if_true, if_pos hop, List.mem_singleton]
    intro j hj
    rw [hj]; exact hi
  | case3 token i h hop f rest2 ih =>
    rw [token_loop_writes.eq_def]
    simp only [h, if_true, hop]
    exact ih hi
  | case4 token rest i h hop ih =>
    rw [token_loop_writes.eq_def]
    simp only [h, if_true, hop, if_false]
    intro j hj
    rcases List.mem_cons.1 hj with hj | hj
    · rw [hj]; exact hi
    · exact ih (by omega) j hj
  | case5 token rest i h =>
    rw [token_loop_writes.eq_def]
    simp [h, hi]

theorem parse_args_writes_bound (toks : List Str) (i : Nat) (hi : i ≤ MAX_ARGS - 1) :
    ∀ j ∈ parse_args_writes toks i, j ≤ MAX_ARGS - 1 := by
  induction toks generalizing i with
  | nil => simp [parse_args_writes, hi]
  | cons t rest ih =>
    simp only [parse_args_writes]
    split
    · intro j hj
      rcases List.mem_cons.1 hj with hj | hj
      · rw [hj]; exact hi
      · exact ih (i + 1) (by omega) j hj
    · simp [hi]

theorem collect_cmds_writes_bound (toks : List Str) (k : Nat) :
    ∀ j ∈ collect_cmds_writes toks k, j < MAX_ARGS - 1 := by
  induction toks generalizing k with
  | nil => simp [collect_cmds_writes]
  | cons t rest ih =>
    simp only [collect_cmds_writes]
    split
    · rename_i hk
      intro j hj
      rcases List.mem_cons.1 hj with hj | hj
      · rw [hj]; exact hk
      · exact ih (k + 1) j hj
    · simp

theorem parse_args_loop_take (toks args : List Str) (h : args.length ≤ MAX_ARGS - 1) :
    parse_args_loop toks args = args ++ toks.take (MAX_ARGS - 1 - args.length) := by
  induction toks generalizing args with
  | nil => simp [parse_args_loop]
  | cons t rest ih =>
    simp only [parse_args_loop]
    split
    · rename_i hlt
      rw [ih (args ++ [t]) (by simp; omega)]
      obtain ⟨d, hd⟩ : ∃ d, MAX_ARGS - 1 - args.length = d + 1 :=
        ⟨MAX_ARGS - 1 - args.length - 1, by omega⟩
      have hd2 : MAX_ARGS - 1 - (args ++ [t]).length = d := by simp; omega
      rw [hd, hd2]
      simp
    · have hz : MAX_ARGS - 1 - args.length = 0 := by omega
      simp [hz]

theorem collect_cmds_take (toks cmds : List Str) (h : cmds.length ≤ MAX_ARGS - 1) :
    collect_cmds toks cmds = cmds ++ toks.take (MAX_ARGS - 1 - cmds.length) := by
  induction toks generalizing cmds with
  | nil => simp [collect_cmds]
  | cons t rest ih =>
    simp only [collect_cmds]
    split
    · rename_i hlt
      rw [ih (cmds ++ [t]) (by simp; omega)]
      obtain ⟨d, hd⟩ : ∃ d, MAX_ARGS - 1 - cmds.length = d + 1 :=
        ⟨MAX_ARGS - 1 - cmds.length - 1, by omega⟩
      have hd2 : MAX_ARGS - 1 - (cmds ++ [t]).length = d := by simp; omega
      rw [hd, hd2]
      simp
    · have hz : MAX_ARGS - 1 - cmds.length = 0 := by omega
      simp [hz]

/-- The write indices of the token loop are consecutive from the number of
arguments already stored up to the final number of arguments, where the
terminator is written. -/
theorem token_loop_writes_range (toks : List Str) (c : Command) :
    ∃ d, (token_loop toks c).args.length = c.args.length + d ∧
      token_loop_writes toks c.args.length = List.range' c.args.length (d + 1) := by
  induction toks, c using token_loop.induct with
  | case1 c => exact ⟨0, by simp [token_loop], by simp [token_loop_writes]⟩
  | case2 c h =>
    refine ⟨0, by rw [token_loop.eq_def]; simp [h], ?_⟩
    rw [token_loop_writes.eq_def]; simp [h]
  | case3 c h f rest2 ih =>
    obtain ⟨d, hd1, hd2⟩ := ih
    refine ⟨d, by rw [token_loop_input f rest2 c h]; exact hd1, ?_⟩
    rw [token_loop_writes.eq_def]
    simp only [h, if_true, true_or]
    exact hd2
  | case4 c h hne =>
    refine ⟨0, by rw [token_loop.eq_def]; simp [h], ?_⟩
    rw [token_loop_writes.eq_def]; simp [h]
  | case5 c h f rest2 hne ih =>
    obtain ⟨d, hd1, hd2⟩ := ih
    refine ⟨d, by rw [token_loop_output f rest2 c h]; exact hd1, ?_⟩
    rw [token_loop_writes.eq_def]
    simp only [h, if_true, true_or, or_true]
    exact hd2
  | case6 c h hne1 hne2 =>
    refine ⟨0, by rw [token_loop.eq_def]; simp [h], ?_⟩
    rw [token_loop_writes.eq_def]; simp [h]
  | case7 c h f rest2 hne1 hne2 ih =>
    obtain ⟨d, hd1, hd2⟩ := ih
    refine ⟨d, ?_, ?_⟩
    · rw [token_loop.eq_def]
      simp only [h, if_true, if_neg hne1, if_neg hne2]
      exact hd1
    · rw [token_loop_writes.eq_def]
      simp only [h, if_true, or_true]
      exact hd2
  | case8 token rest c h h1 h2 h3 ih =>
    obtain ⟨d, hd1, hd2⟩ := ih
    simp only [List.length_append, List.length_cons, List.length_nil, Nat.zero_add] at hd1 hd2
    refine ⟨d + 1, ?_, ?_⟩
    · rw [token_loop_plain token rest c (not_redir_op_of_ne token h1 h2 h3) h, hd1]
      omega
    · rw [token_loop_writes.eq_def]
      simp only [h, if_true, h1, h2, h3, or_self, if_false]
      rw [hd2]
      rfl
  | case9 token rest c h =>
    refine ⟨0, by rw [token_loop.eq_def]; simp [h], ?_⟩
    rw [token_loop_writes.eq_def]; simp [h]

/-- C15: for every input text, every index written in `args` by
`execute_simple` and by `parse_args`, the terminator included, is at most 63;
the indices of `execute_simple` are 0 up to the final number of arguments,
which is at most 63; `parse_args` keeps the first 63 tokens and ignores the
rest; and in `execute_piped` every index written in `cmds` is at most 62, the
array keeps the first 63 stage texts and `num_cmds` ends at most at 63. -/
theorem array_writes_in_bounds (cmd cmdline : Str) :
    (∀ j ∈ token_loop_writes (strtok_tokens " \t\n".toList cmd) 0, j ≤ 63) ∧
    token_loop_writes (strtok_tokens " \t\n".toList cmd) 0 =
      List.range ((resolve cmd).args.length + 1) ∧
    (resolve cmd).args.length ≤ 63 ∧
    (∀ j ∈ parse_args_writes (strtok_tokens " \t\n".toList cmd) 0, j ≤ 63) ∧
    parse_args cmd = (strtok_tokens " \t\n".toList cmd).take 63 ∧
    (parse_args cmd).length ≤ 63 ∧
    (∀ j ∈ collect_cmds_writes (strtok_tokens "|".toList cmdline) 0, j ≤ 62) ∧
    collect_cmds (strtok_tokens "|".toList cmdline) [] =
      (strtok_tokens "|".toList cmdline).take 63 ∧
    (collect_cmds (strtok_tokens "|".toList cmdline) []).length ≤ 63 := by
  have hw := token_loop_writes_bound (strtok_tokens " \t\n".toList cmd) 0 (by simp [MAX_ARGS])
  obtain ⟨d, hd1, hd2⟩ :=
    token_loop_writes_range (strtok_tokens " \t\n".toList cmd) ⟨[], none, none, false⟩
  simp only [List.length_nil, Nat.zero_add] at hd1 hd2
  have hrange : token_loop_writes (strtok_tokens " \t\n".toList cmd) 0 =
      List.range ((resolve cmd).args.length + 1) := by
    rw [hd2, List.range_eq_range']
    simp only [resolve, hd1]
  have hparse : parse_args cmd = (strtok_tokens " \t\n".toList cmd).take 63 := by
    simp only [parse_args]
    rw [parse_args_loop_take _ [] (by simp)]
    simp [MAX_ARGS]
  have hcmds : collect_cmds (strtok_tokens "|".toList cmdline) [] =
      (strtok_tokens "|".toList cmdline).take 63 := by
    rw [collect_cmds_take _ [] (by simp)]
    simp [MAX_ARGS]
  refine ⟨fun j hj => by simpa [MAX_ARGS] using hw j hj, hrange, ?_, ?_, hparse, ?_, ?_, hcmds, ?_⟩
  · have hlast : (resolve cmd).args.length ∈
        token_loop_writes (strtok_tokens " \t\n".toList cmd) 0 := by
      rw [hrange]; simp
    simpa [MAX_ARGS] using hw _ hlast
  · intro j hj
    simpa [MAX_ARGS] using
      parse_args_writes_bound (strtok_tokens " \t\n".toList cmd) 0 (by simp [MAX_ARGS]) j hj
  · rw [hparse]; simp
  · intro j hj
    have := collect_cmds_writes_bound (strtok_tokens "|".toList cmdline) 0 j hj
    simp only [MAX_ARGS] at this
    omega
  · rw [hcmds]; simp

/-- Witness for C15: `ls -l` writes `args[0]`, `args[1]` and the terminator
`args[2]`. -/
theorem array_writes_in_bounds_witness :
    2 ∈ token_loop_writes (strtok_tokens " \t\n".toList "ls -l\n".toList) 0 ∧ 2 ≤ 63 :=
  ⟨by decide,
   (array_writes_in_bounds "ls -l\n".toList "ls | wc\n".toList).1 2 (by decide)⟩

end CShell
